import Mathlib

/-!
Verification of the complete-pivoting LU decomposition engine (class `LU`,
file `src/unnamed/part_002` of the repository, an Eigen `LU.h`).

The scalar type is embedded as `ℚ` (exact arithmetic).  Matrices are embedded
shallowly as total functions `ℕ → ℕ → ℚ` together with explicit row/column
counts; entries outside the stated bounds are irrelevant garbage, exactly as
the out-of-bounds storage of a C++ matrix.

The dense-matrix primitives that the repository consumes as external
collaborators (the `maxCoeff` visitor, `ei_isMuchSmallerThan`, the machine
epsilon and the triangular solvers) are not part of the 10 source files; they
are modelled from the spec, and each such definition is marked
`Modelled from the spec:` in its doc comment.  Everything else is translated
directly from `src/unnamed/part_002`.
-/

/- The rational arithmetic operations are `@[irreducible]` upstream, which
blocks `decide`-based evaluation of the embedding at concrete inputs; restore
the default reducibility so that concrete witnesses evaluate. -/
attribute [local semireducible] Rat.add Rat.mul Rat.sub Rat.inv

/-- A matrix of rationals: entry access by (row, column).  Dimensions are
carried separately, mirroring a dynamically sized dense matrix. -/
abbrev Mat : Type := ℕ → ℕ → ℚ

/-- The transposition of indices `a` and `b` as a function on `ℕ`. -/
def swapIdx (a b i : ℕ) : ℕ := if i = a then b else if i = b then a else i

/-- `std::swap(f[a], f[b])` on an index vector stored as a function:
the new vector reads `f` through the transposition of positions `a`, `b`. -/
def pswap (f : ℕ → ℕ) (a b : ℕ) : ℕ → ℕ := fun i => f (swapIdx a b i)

/-- `m_lu.row(a).swap(m_lu.row(b))`: swap two full rows of a matrix. -/
def rowSwap (m : Mat) (a b : ℕ) : Mat := fun i j => m (swapIdx a b i) j

/-- `m_lu.col(a).swap(m_lu.col(b))`: swap two full columns of a matrix. -/
def colSwap (m : Mat) (a b : ℕ) : Mat := fun i j => m i (swapIdx a b j)

/-- Modelled from the spec: the machine epsilon `epsilon<Scalar>()` of the
scalar type (the definition lives in the matrix core, outside the 10 source
files).  The exact-arithmetic embedding over `ℚ` has machine epsilon `0`. -/
def epsilonQ : ℚ := 0

/-- Modelled from the spec: `precision<RealScalar>()`, the default precision
constant used by the `LU` default constructor.  `0` for exact arithmetic. -/
def precisionQ : ℚ := 0

/-- Modelled from the spec: `ei_abs`, the scalar absolute value used by the
pivot search and the negligibility test (a collaborator from the scalar
glue, outside the 10 source files). -/
def ei_abs (a : ℚ) : ℚ := if a < 0 then -a else a

theorem ei_abs_eq_abs (a : ℚ) : ei_abs a = |a| := by
  unfold ei_abs
  rcases lt_or_le a 0 with h | h
  · rw [if_pos h, abs_of_neg h]
  · rw [if_neg (not_lt.mpr h), abs_of_nonneg h]

/-- Modelled from the spec: `ei_isMuchSmallerThan(a, b, prec)`, the relative
"much smaller than" comparison used for the negligible-pivot test
(spec §4.1 step 3: negligible relative to `biggest` under
`precisionThreshold`; `biggest == 0` must force rank 0, hence the comparison
is non-strict). -/
def ei_isMuchSmallerThan (a b prec : ℚ) : Prop := ei_abs a ≤ ei_abs b * prec

instance (a b prec : ℚ) : Decidable (ei_isMuchSmallerThan a b prec) :=
  inferInstanceAs (Decidable (ei_abs a ≤ ei_abs b * prec))

/-- The index pairs of the bottom-right corner `[k, rows) × [k, cols)`,
listed in column-major traversal order (column outer, row inner), the storage
order of the default dense matrix. -/
def cornerPairs (rows cols k : ℕ) : List (ℕ × ℕ) :=
  (List.range (cols - k)).flatMap fun j =>
    (List.range (rows - k)).map fun i => (k + i, k + j)

/-- Modelled from the spec: the `maxCoeff(&row,&col)` visitor over the corner
`[k, rows) × [k, cols)` of `.cwise().abs()` (spec §4.1 step 1: search the
trailing sub-block for the entry of maximum absolute value and record its
location).  Returns `(row, col, maximum)` with absolute indices; the first
entry in traversal order wins ties. -/
def cornerArgmax (lu : Mat) (rows cols k : ℕ) : ℕ × ℕ × ℚ :=
  (cornerPairs rows cols k).foldl
    (fun acc ij =>
      if acc.2.2 < ei_abs (lu ij.1 ij.2) then (ij.1, ij.2, ei_abs (lu ij.1 ij.2)) else acc)
    (k, k, ei_abs (lu k k))

/-- The loop-local working data of `LU::compute`: the in-place factorization
buffer and the recorded transpositions. -/
structure ElimState where
  lu : Mat
  rowT : ℕ → ℕ
  colT : ℕ → ℕ
  nT : ℕ

/-- Fill `rows_transpositions`/`cols_transpositions` with the identity on
`[k, size)`, as done on the early-termination path of `LU::compute`. -/
def fillIdentity (t : ℕ → ℕ) (k size : ℕ) : ℕ → ℕ :=
  fun i => if k ≤ i ∧ i < size then i else t i

/-- One non-degenerate iteration of the elimination loop of `LU::compute`
(`src/unnamed/part_002`, lines 517-530), pivot located at `(r, c)`:
record the transpositions, swap row `k` with `r` and column `k` with `c`,
divide the sub-column below the pivot, and perform the rank-1 update. -/
def luStep (rows cols size k : ℕ) (st : ElimState) (r c : ℕ) : ElimState :=
  let rowT' := fun i => if i = k then r else st.rowT i
  let colT' := fun i => if i = k then c else st.colT i
  let nT1 := if k ≠ r then st.nT + 1 else st.nT
  let nT2 := if k ≠ c then nT1 + 1 else nT1
  let A2 := colSwap (rowSwap st.lu k r) k c
  let A3 := if k < rows - 1 then
      (fun i j => if j = k ∧ k < i ∧ i < rows then A2 i j / A2 k k else A2 i j)
    else A2
  let A4 := if k < size - 1 then
      (fun i j => if k < i ∧ i < rows ∧ k < j ∧ j < cols then A3 i j - A3 i k * A3 k j
        else A3 i j)
    else A3
  { lu := A4, rowT := rowT', colT := colT', nT := nT2 }

/-- The elimination loop of `LU::compute` (lines 491-531).  `k` is the current
step, `n` the number of remaining iterations (`k + n = size`), `biggest` the
magnitude recorded at `k = 0`.  Returns the final working data and the rank
(`size` when the loop runs to completion, `k` on early termination). -/
def luLoop (rows cols size : ℕ) (prec : ℚ) : ℚ → ℕ → ℕ → ElimState → ElimState × ℕ
  | _, _, 0, st => (st, size)
  | biggest, k, n + 1, st =>
    let m := cornerArgmax st.lu rows cols k
    let biggest' := if k = 0 then m.2.2 else biggest
    if ei_isMuchSmallerThan m.2.2 biggest' prec then
      ({ st with rowT := fillIdentity st.rowT k size, colT := fillIdentity st.colT k size }, k)
    else
      luLoop rows cols size prec biggest' (k + 1) n (luStep rows cols size k st m.1 m.2.1)

/-- Apply the recorded transpositions `swapIdx k (t k)` for the indices in
`ks`, the last list element acting first.  `applySwaps t (List.range size)`
is the forward replay loop building `m_q`;
`applySwaps t (List.range size).reverse` is the reverse replay loop building
`m_p` (lines 533-539). -/
def applySwaps (t : ℕ → ℕ) : List ℕ → ℕ → ℕ
  | [], i => i
  | k :: ks, i => swapIdx k (t k) (applySwaps t ks i)

/-- The elimination phase of `LU::compute` on matrix `A` of shape
`rows × cols`: initial buffer `A`, initial transposition records unobservable
(every slot below `size` is written before it is read; the identity is used
as the arbitrary initial value), threshold `epsilon * size` (line 485). -/
def luElim (A : Mat) (rows cols : ℕ) : ElimState × ℕ :=
  let size := min rows cols
  luLoop rows cols size (epsilonQ * size) 0 0 size
    { lu := A, rowT := fun i => i, colT := fun i => i, nT := 0 }

/-- The state of a `LU<MatrixType>` object.  Member names follow the C++
fields.  `m_originalMatrix` is the non-owning pointer to the decomposed
matrix: `none` models the null pointer of the default constructor.
`m_rank` is `0` rather than the C++ sentinel `-1` on a fresh object; the
sentinel is unobservable because every accessor asserts initialization. -/
structure LUState where
  m_originalMatrix : Option Mat
  rows : ℕ
  cols : ℕ
  m_lu : Mat
  m_p : ℕ → ℕ
  m_q : ℕ → ℕ
  m_det_pq : ℤ
  m_rank : ℕ
  m_precision : ℚ

/-- The default constructor `LU()`. -/
def LUState.fresh : LUState :=
  { m_originalMatrix := none, rows := 0, cols := 0, m_lu := fun _ _ => 0,
    m_p := fun i => i, m_q := fun j => j, m_det_pq := 0, m_rank := 0,
    m_precision := precisionQ }

/-- `LU::compute(matrix)` (lines 471-543): run the elimination loop, then
build `m_p` by replaying the recorded row transpositions in reverse order and
`m_q` by replaying the column transpositions in forward order, and set the
parity.  It reads no prior member, so the incoming state is ignored. -/
def LUState.compute (_st : LUState) (A : Mat) (rows cols : ℕ) : LUState :=
  let size := min rows cols
  let er := luElim A rows cols
  { m_originalMatrix := some A, rows := rows, cols := cols, m_lu := er.1.lu,
    m_p := applySwaps er.1.rowT (List.range size).reverse,
    m_q := applySwaps er.1.colT (List.range size),
    m_det_pq := if er.1.nT % 2 = 1 then -1 else 1,
    m_rank := er.2,
    m_precision := epsilonQ * size }

/-- The two `ei_assert` failure classes of the `LU` methods: the
"LU is not initialized" precondition, the square-matrix check of
`determinant()`, and the right-hand-side row-count check of the solver. -/
inductive LUError where
  | notInitialized
  | notSquare
  | dimensionMismatch
deriving DecidableEq, Repr

/-- `LU::matrixLU()`. -/
def LUState.matrixLU (st : LUState) : Except LUError Mat :=
  if st.m_originalMatrix.isSome then .ok st.m_lu else .error .notInitialized

/-- `LU::permutationP()`. -/
def LUState.permutationP (st : LUState) : Except LUError (ℕ → ℕ) :=
  if st.m_originalMatrix.isSome then .ok st.m_p else .error .notInitialized

/-- `LU::permutationQ()`. -/
def LUState.permutationQ (st : LUState) : Except LUError (ℕ → ℕ) :=
  if st.m_originalMatrix.isSome then .ok st.m_q else .error .notInitialized

/-- `LU::rank()`. -/
def LUState.rank (st : LUState) : Except LUError ℕ :=
  if st.m_originalMatrix.isSome then .ok st.m_rank else .error .notInitialized

/-- `LU::dimensionOfKernel()`: `m_lu.cols() - m_rank`. -/
def LUState.dimensionOfKernel (st : LUState) : Except LUError ℕ :=
  if st.m_originalMatrix.isSome then .ok (st.cols - st.m_rank) else .error .notInitialized

/-- `LU::isInjective()`: `m_rank == m_lu.cols()`. -/
def LUState.isInjective (st : LUState) : Except LUError Bool :=
  if st.m_originalMatrix.isSome then .ok (st.m_rank = st.cols) else .error .notInitialized

/-- `LU::isSurjective()`: `m_rank == m_lu.rows()`. -/
def LUState.isSurjective (st : LUState) : Except LUError Bool :=
  if st.m_originalMatrix.isSome then .ok (st.m_rank = st.rows) else .error .notInitialized

/-- `LU::isInvertible()`: `isInjective() && isSurjective()`. -/
def LUState.isInvertible (st : LUState) : Except LUError Bool :=
  if st.m_originalMatrix.isSome then .ok (st.m_rank = st.cols ∧ st.m_rank = st.rows)
  else .error .notInitialized

/-- `LU::determinant()` (lines 545-551): asserts initialization, asserts the
matrix is square, and returns `Scalar(m_det_pq) * m_lu.diagonal().prod()`. -/
def LUState.determinant (st : LUState) : Except LUError ℚ :=
  if st.m_originalMatrix.isSome then
    if st.rows = st.cols then
      .ok ((st.m_det_pq : ℚ) * ∏ i ∈ Finset.range st.rows, st.m_lu i i)
    else .error .notSquare
  else .error .notInitialized

/-- Overwrite row `a` of a matrix: `m.row(a) = row`. -/
def updateRow (m : Mat) (a : ℕ) (row : ℕ → ℚ) : Mat :=
  fun i j => if i = a then row j else m i j

/-- One in-place forward-substitution step: row `i` of `c` receives
`c i - (row i of L below the diagonal) · (rows < i of c)`. -/
def fsubStep (L : Mat) (c : Mat) (i : ℕ) : Mat :=
  fun a l => if a = i then c i l - ∑ t ∈ Finset.range i, L i t * c t l else c a l

/-- Modelled from the spec: the triangular solver primitive instantiated at a
unit-lower-triangular view (`triangularView<UnitLowerTriangular>()
.solveInPlace`), an external collaborator not among the source files.
In-place forward substitution on the leading `dim` rows of `c`, reading the
strictly lower triangle of `L`. -/
def forwardSubst (L : Mat) (dim : ℕ) (c : Mat) : Mat :=
  (List.range dim).foldl (fsubStep L) c

/-- One in-place backward-substitution step: row `i` of `c` receives
`(c i - (row i of U beyond the diagonal, up to dim) · c) / U i i`. -/
def bsubStep (U : Mat) (dim : ℕ) (c : Mat) (i : ℕ) : Mat :=
  fun a l =>
    if a = i then (c i l - ∑ t ∈ Finset.Ico (i + 1) dim, U i t * c t l) / U i i
    else c a l

/-- Modelled from the spec: the triangular solver primitive instantiated at an
upper-triangular view (`triangularView<UpperTriangular>().solveInPlace`), an
external collaborator not among the source files.  In-place backward
substitution on the leading `dim` rows of `c`, reading the upper triangle
(diagonal included) of `U`. -/
def backSubst (U : Mat) (dim : ℕ) (c : Mat) : Mat :=
  (List.range dim).reverse.foldl (bsubStep U dim) c

/-- `ei_lu_solve_impl::evalTo` (`src/unnamed/part_002`, lines 54-106): the
4-step solver.  The result conceptually has shape `cols × B.cols()`; the
working matrix `c` and the destination start from zero in place of the
uninitialized C++ storage (every row that is ever read is written first,
because `m_p` and `m_q` are permutations). -/
def luSolveImpl (st : LUState) (B : Mat) : Mat :=
  if st.m_rank = 0 then fun _ _ => 0
  else
    let rows := st.rows
    let cols := st.cols
    let rank := st.m_rank
    let smalldim := min rows cols
    -- Step 1: c.row(m_p.coeff(i)) = m_rhs.row(i)
    let c1 : Mat := (List.range rows).foldl (fun c i => updateRow c (st.m_p i) (B i))
      (fun _ _ => 0)
    -- Step 2: unit-lower solve on the leading smalldim × smalldim corner ...
    let c2 := forwardSubst st.m_lu smalldim c1
    -- ... and, if rows > cols, subtract BottomLeft(rows-cols, cols) * c.topRows(cols)
    let c2b := if cols < rows then
        (fun i l => if cols ≤ i ∧ i < rows then
            c2 i l - ∑ t ∈ Finset.range cols, st.m_lu i t * c2 t l
          else c2 i l)
      else c2
    -- Step 3: upper solve on the leading rank × rank corner
    let c3 := backSubst st.m_lu rank c2b
    -- Step 4: dst.row(m_q.coeff(i)) = c.row(i) for i < rank, zero rows after
    let d1 : Mat := (List.range rank).foldl (fun d i => updateRow d (st.m_q i) (c3 i))
      (fun _ _ => 0)
    (List.range (cols - rank)).foldl (fun d i => updateRow d (st.m_q (rank + i)) (fun _ => 0)) d1

/-- `LU::solve(b)` (lines 324-330) followed by the evaluation of the returned
expression: the initialization assertion is checked by `solve`, the
row-count assertion `m_rhs.rows() == rows` by `evalTo` (line 74).  Returns
the solution together with its shape `cols × B.cols()`. -/
def LUState.solve (st : LUState) (B : Mat) (brows bcols : ℕ) :
    Except LUError (Mat × ℕ × ℕ) :=
  if st.m_originalMatrix.isSome then
    if brows = st.rows then .ok (luSolveImpl st B, st.cols, bcols)
    else .error .dimensionMismatch
  else .error .notInitialized

/-- `LU::computeKernel` (lines 553-587): `y := -TopRight(rank, dimker)` corner
of `m_lu`, solved in place against the `rank × rank` upper corner; rows of the
result are `y` scattered through `m_q`, zero at the remaining positions, and a
`1` is planted at `(m_q(rank+k), k)` for each of the `dimker` columns. -/
def luComputeKernel (st : LUState) : Mat :=
  let cols := st.cols
  let rank := st.m_rank
  let dimker := cols - rank
  let y0 : Mat := fun i k => -(st.m_lu i (cols - dimker + k))
  let y := backSubst st.m_lu rank y0
  let r1 : Mat := (List.range rank).foldl (fun r i => updateRow r (st.m_q i) (y i))
    (fun _ _ => 0)
  let r2 : Mat := (List.range (cols - rank)).foldl
    (fun r i => updateRow r (st.m_q (rank + i)) (fun _ => 0)) r1
  (List.range dimker).foldl
    (fun r k => fun i j => if i = st.m_q (rank + k) ∧ j = k then 1 else r i j) r2

/-- `LU::kernel()` (lines 589-597): asserts initialization and returns the
kernel matrix with shape `m_lu.cols() × dimensionOfKernel()`. -/
def LUState.kernel (st : LUState) : Except LUError (Mat × ℕ × ℕ) :=
  if st.m_originalMatrix.isSome then
    .ok (luComputeKernel st, st.cols, st.cols - st.m_rank)
  else .error .notInitialized

/-- `LU::computeImage` (lines 599-607): column `i` of the result is column
`m_q.coeff(i)` of the original matrix, for `i < m_rank`; the per-column copy
loop is written pointwise. -/
def luComputeImage (st : LUState) (orig : Mat) : Mat :=
  fun a b => if b < st.m_rank then orig a (st.m_q b) else 0

/-- `LU::image()` (lines 609-617): asserts initialization and returns the
image matrix with shape `m_originalMatrix->rows() × m_rank`. -/
def LUState.image (st : LUState) : Except LUError (Mat × ℕ × ℕ) :=
  match st.m_originalMatrix with
  | none => .error .notInitialized
  | some orig => .ok (luComputeImage st orig, st.rows, st.m_rank)

/-- Matrix product with explicit inner dimension. -/
def mulMat (A B : Mat) (inner : ℕ) : Mat :=
  fun i j => ∑ t ∈ Finset.range inner, A i t * B t j

/-- The unit-lower-triangular factor L read from the combined LU matrix:
unit diagonal, strictly-lower entries from the buffer, zero above. -/
def matL (G : Mat) : Mat :=
  fun i t => if t = i then 1 else if t < i then G i t else 0

/-- The upper-triangular factor U read from the combined LU matrix:
upper entries (diagonal included) from the buffer, zero below. -/
def matU (G : Mat) : Mat :=
  fun t j => if t ≤ j then G t j else 0

/-- The permutation matrix realized by an index vector `p`: column `j` has its
unit entry at row `p j`, so that `(permMat p * x) (p i) = x i`, matching the
scatter convention `c.row(m_p.coeff(i)) = m_rhs.row(i)` of the solver. -/
def permMat (p : ℕ → ℕ) : Mat :=
  fun i j => if i = p j then 1 else 0

/-! ### Elementary facts about transpositions and swap replay -/

theorem swapIdx_left (a b : ℕ) : swapIdx a b a = b := by
  simp [swapIdx]

theorem swapIdx_right (a b : ℕ) : swapIdx a b b = a := by
  unfold swapIdx
  by_cases h : b = a <;> simp [h]

theorem swapIdx_of_ne (a b i : ℕ) (h1 : i ≠ a) (h2 : i ≠ b) : swapIdx a b i = i := by
  simp [swapIdx, h1, h2]

theorem swapIdx_involutive (a b i : ℕ) : swapIdx a b (swapIdx a b i) = i := by
  unfold swapIdx
  by_cases h1 : i = a <;> by_cases h2 : i = b <;> by_cases h3 : b = a <;>
    simp_all

theorem swapIdx_lt {n a b i : ℕ} (ha : a < n) (hb : b < n) (hi : i < n) :
    swapIdx a b i < n := by
  unfold swapIdx
  split
  · exact hb
  · split
    · exact ha
    · exact hi

theorem swapIdx_ge {k r i : ℕ} (hr : k ≤ r) (hi : k ≤ i) : k ≤ swapIdx k r i := by
  unfold swapIdx
  split
  · exact hr
  · split
    · exact le_rfl
    · exact hi

theorem swapIdx_lt_iff_lt {k r i : ℕ} (hr : k ≤ r) : swapIdx k r i < k ↔ i < k := by
  constructor
  · intro h
    by_contra hik
    exact absurd (swapIdx_ge hr (Nat.le_of_not_lt hik)) (Nat.not_le_of_lt h)
  · intro h
    rw [swapIdx_of_ne]
    · exact h
    · omega
    · omega

theorem swapIdx_of_lt {k r i : ℕ} (hr : k ≤ r) (h : i < k) : swapIdx k r i = i := by
  rw [swapIdx_of_ne] <;> omega

theorem applySwaps_append (t : ℕ → ℕ) (l1 l2 : List ℕ) (i : ℕ) :
    applySwaps t (l1 ++ l2) i = applySwaps t l1 (applySwaps t l2 i) := by
  induction l1 with
  | nil => rfl
  | cons k ks ih => simp [applySwaps, ih]

theorem applySwaps_reverse_cancel (t : ℕ → ℕ) (l : List ℕ) (i : ℕ) :
    applySwaps t l (applySwaps t l.reverse i) = i := by
  induction l generalizing i with
  | nil => rfl
  | cons k ks ih =>
    simp only [List.reverse_cons, applySwaps, applySwaps_append]
    rw [ih, swapIdx_involutive]

theorem applySwaps_cancel_reverse (t : ℕ → ℕ) (l : List ℕ) (i : ℕ) :
    applySwaps t l.reverse (applySwaps t l i) = i := by
  have := applySwaps_reverse_cancel t l.reverse i
  rwa [List.reverse_reverse] at this

theorem applySwaps_lt {t : ℕ → ℕ} {l : List ℕ} {n : ℕ}
    (h : ∀ k ∈ l, k < n ∧ t k < n) : ∀ i < n, applySwaps t l i < n := by
  induction l with
  | nil => intro i hi; exact hi
  | cons k ks ih =>
    intro i hi
    have hk := h k (List.mem_cons_self k ks)
    exact swapIdx_lt hk.1 hk.2 (ih (fun x hx => h x (List.mem_cons_of_mem k hx)) i hi)

theorem applySwaps_congr {t t' : ℕ → ℕ} {l : List ℕ}
    (h : ∀ k ∈ l, t k = t' k) (i : ℕ) : applySwaps t l i = applySwaps t' l i := by
  induction l with
  | nil => rfl
  | cons k ks ih =>
    simp only [applySwaps]
    rw [h k (List.mem_cons_self k ks), ih (fun x hx => h x (List.mem_cons_of_mem k hx))]

theorem applySwaps_of_fix {t : ℕ → ℕ} {l : List ℕ}
    (h : ∀ k ∈ l, t k = k) (i : ℕ) : applySwaps t l i = i := by
  induction l with
  | nil => rfl
  | cons k ks ih =>
    simp only [applySwaps]
    rw [ih (fun x hx => h x (List.mem_cons_of_mem k hx)), h k (List.mem_cons_self k ks)]
    by_cases hik : i = k <;> simp [swapIdx, hik]

theorem applySwaps_injective (t : ℕ → ℕ) (l : List ℕ) :
    Function.Injective (applySwaps t l) := by
  intro x y hxy
  have hx := applySwaps_cancel_reverse t l x
  have hy := applySwaps_cancel_reverse t l y
  rw [← hx, ← hy, hxy]

/-- Replaying in-range swaps starting from the identity maps `List.range n`
to a permutation of itself: every index appears exactly once. -/
theorem applySwaps_range_perm (t : ℕ → ℕ) (l : List ℕ) (n : ℕ)
    (h : ∀ k ∈ l, k < n ∧ t k < n) :
    ((List.range n).map (applySwaps t l)).Perm (List.range n) := by
  apply List.perm_of_nodup_nodup_toFinset_eq
  · exact (List.nodup_range n).map (applySwaps_injective t l)
  · exact List.nodup_range n
  · ext a
    simp only [List.mem_toFinset, List.mem_map, List.mem_range]
    constructor
    · rintro ⟨y, hy, rfl⟩
      exact applySwaps_lt h y hy
    · intro ha
      refine ⟨applySwaps t l.reverse a, ?_, applySwaps_reverse_cancel t l a⟩
      exact applySwaps_lt (fun k hk => h k (List.mem_reverse.mp hk)) a ha

/-! ### Facts about the pivot search -/

theorem mem_cornerPairs {rows cols k i j : ℕ} (h1 : k ≤ i) (h2 : i < rows)
    (h3 : k ≤ j) (h4 : j < cols) : (i, j) ∈ cornerPairs rows cols k := by
  unfold cornerPairs
  rw [List.mem_flatMap]
  refine ⟨j - k, ?_, ?_⟩
  · rw [List.mem_range]; omega
  · rw [List.mem_map]
    exact ⟨i - k, by rw [List.mem_range]; omega, by simp; omega⟩

theorem cornerPairs_mem {rows cols k : ℕ} :
    ∀ ij ∈ cornerPairs rows cols k,
      k ≤ ij.1 ∧ ij.1 < rows ∧ k ≤ ij.2 ∧ ij.2 < cols := by
  intro ij hij
  unfold cornerPairs at hij
  rw [List.mem_flatMap] at hij
  obtain ⟨b, hb, hij⟩ := hij
  rw [List.mem_range] at hb
  rw [List.mem_map] at hij
  obtain ⟨a, ha, rfl⟩ := hij
  rw [List.mem_range] at ha
  refine ⟨by omega, by omega, by omega, by omega⟩

/-- Invariant of the `maxCoeff` fold: the accumulator names a real entry,
its location satisfies `P`, the value only grows, and every processed entry
is dominated. -/
theorem argmaxFold_spec (lu : Mat) (P : ℕ → ℕ → Prop) (l : List (ℕ × ℕ)) :
    ∀ acc : ℕ × ℕ × ℚ, acc.2.2 = ei_abs (lu acc.1 acc.2.1) → P acc.1 acc.2.1 →
    (∀ ij ∈ l, P ij.1 ij.2) →
    (let res := l.foldl
      (fun acc ij =>
        if acc.2.2 < ei_abs (lu ij.1 ij.2) then (ij.1, ij.2, ei_abs (lu ij.1 ij.2)) else acc) acc
     res.2.2 = ei_abs (lu res.1 res.2.1) ∧ P res.1 res.2.1 ∧ acc.2.2 ≤ res.2.2 ∧
      ∀ ij ∈ l, ei_abs (lu ij.1 ij.2) ≤ res.2.2) := by
  induction l with
  | nil => intro acc h1 h2 _; exact ⟨h1, h2, le_rfl, by simp⟩
  | cons x xs ih =>
    intro acc h1 h2 hl
    simp only [List.foldl_cons]
    by_cases hx : acc.2.2 < ei_abs (lu x.1 x.2)
    · have h1' : (x.1, x.2, ei_abs (lu x.1 x.2)).2.2 = ei_abs (lu x.1 x.2) := rfl
      have h2' : P x.1 x.2 := hl x (List.mem_cons_self x xs)
      have := ih (x.1, x.2, ei_abs (lu x.1 x.2)) h1' h2'
        (fun ij hij => hl ij (List.mem_cons_of_mem x hij))
      rw [if_pos hx]
      refine ⟨this.1, this.2.1, le_trans (le_of_lt hx) this.2.2.1, ?_⟩
      intro ij hij
      rcases List.mem_cons.mp hij with rfl | hmem
      · exact this.2.2.1
      · exact this.2.2.2 ij hmem
    · have := ih acc h1 h2 (fun ij hij => hl ij (List.mem_cons_of_mem x hij))
      rw [if_neg hx]
      refine ⟨this.1, this.2.1, this.2.2.1, ?_⟩
      intro ij hij
      rcases List.mem_cons.mp hij with rfl | hmem
      · exact le_trans (le_of_not_lt hx) this.2.2.1
      · exact this.2.2.2 ij hmem

theorem cornerArgmax_spec (lu : Mat) (rows cols k : ℕ) (hr : k < rows) (hc : k < cols) :
    (cornerArgmax lu rows cols k).2.2
        = ei_abs (lu (cornerArgmax lu rows cols k).1 (cornerArgmax lu rows cols k).2.1) ∧
      (k ≤ (cornerArgmax lu rows cols k).1 ∧ (cornerArgmax lu rows cols k).1 < rows ∧
        k ≤ (cornerArgmax lu rows cols k).2.1 ∧ (cornerArgmax lu rows cols k).2.1 < cols) ∧
      ∀ i j, k ≤ i → i < rows → k ≤ j → j < cols →
        ei_abs (lu i j) ≤ (cornerArgmax lu rows cols k).2.2 := by
  have := argmaxFold_spec lu
    (fun i j => k ≤ i ∧ i < rows ∧ k ≤ j ∧ j < cols)
    (cornerPairs rows cols k) (k, k, ei_abs (lu k k)) rfl
    ⟨le_rfl, hr, le_rfl, hc⟩ cornerPairs_mem
  refine ⟨this.1, this.2.1, ?_⟩
  intro i j h1 h2 h3 h4
  exact this.2.2.2 (i, j) (mem_cornerPairs h1 h2 h3 h4)

theorem cornerArgmax_nonneg (lu : Mat) (rows cols k : ℕ) (hr : k < rows) (hc : k < cols) :
    0 ≤ (cornerArgmax lu rows cols k).2.2 := by
  rw [(cornerArgmax_spec lu rows cols k hr hc).1, ei_abs_eq_abs]
  exact abs_nonneg _

/-! ### The partial factors and the elimination invariant -/

/-- The partially built unit-lower factor: columns below `k` read from the
working buffer `G`, identity columns from `k` on. -/
def Lpart (G : Mat) (k : ℕ) : Mat :=
  fun i t => if t < k then matL G i t else if t = i then 1 else 0

/-- The conceptual working matrix of step `k`: entries eliminated by the
first `k` steps (column `< k`, below the diagonal) are zero — their storage
slots in `G` hold the L multipliers — and every other entry reads `G`. -/
def Wpart (G : Mat) (k : ℕ) : Mat :=
  fun t j => if j < k ∧ j < t then 0 else G t j

/-- The reconstruction invariant carried through the elimination loop: after
`k` steps, the original matrix, read through the row/column transpositions
applied so far, factors as the partial unit-lower factor times the working
matrix. -/
def ReconInv (A : Mat) (rows cols k : ℕ) (es : ElimState) : Prop :=
  ∀ i < rows, ∀ j < cols,
    A (applySwaps es.rowT (List.range k) i) (applySwaps es.colT (List.range k) j) =
      ∑ t ∈ Finset.range rows, Lpart es.lu k i t * Wpart es.lu k t j

theorem colSwap_rowSwap_apply (G : Mat) (k r c i j : ℕ) :
    colSwap (rowSwap G k r) k c i j = G (swapIdx k r i) (swapIdx k c j) := rfl

/-- Beyond `lo ≥ k`, the partial L factor is the identity, so the tail of the
product sum collapses to a single working-matrix entry. -/
theorem delta_tail_sum (M : Mat) (k lo rows : ℕ) (hlo : k ≤ lo) (a b : ℕ) :
    ∑ t ∈ Finset.Ico lo rows, Lpart M k a t * Wpart M k t b
      = if a ∈ Finset.Ico lo rows then Wpart M k a b else 0 := by
  have step : ∀ t ∈ Finset.Ico lo rows,
      Lpart M k a t * Wpart M k t b = if t = a then Wpart M k t b else 0 := by
    intro t ht
    rw [Finset.mem_Ico] at ht
    unfold Lpart
    rw [if_neg (by omega)]
    by_cases hta : t = a
    · simp [hta]
    · simp [hta]
  rw [Finset.sum_congr rfl step, Finset.sum_ite_eq' (Finset.Ico lo rows) a]

/-- Swapping row `k` with `r ≥ k` and column `k` with `c ≥ k` commutes with
the partial factorization product: the swapped buffer reproduces the original
product read at the transposed row and column indices. -/
theorem swapStep_sum (G : Mat) (rows cols k r c : ℕ)
    (hkr : k ≤ r) (hr : r < rows) (hkc : k ≤ c) (hc : c < cols)
    (i j : ℕ) (hi : i < rows) (hj : j < cols) :
    ∑ t ∈ Finset.range rows,
        Lpart (colSwap (rowSwap G k r) k c) k i t
          * Wpart (colSwap (rowSwap G k r) k c) k t j
      = ∑ t ∈ Finset.range rows,
          Lpart G k (swapIdx k r i) t * Wpart G k t (swapIdx k c j) := by
  have hk_rows : k < rows := lt_of_le_of_lt hkr hr
  have hk_cols : k < cols := lt_of_le_of_lt hkc hc
  have hi' : swapIdx k r i < rows := swapIdx_lt hk_rows hr hi
  have hikk : i < k ↔ swapIdx k r i < k := (swapIdx_lt_iff_lt hkr).symm
  have hjkk : j < k ↔ swapIdx k c j < k := (swapIdx_lt_iff_lt hkc).symm
  have hjlow : j < k → swapIdx k c j = j := swapIdx_of_lt hkc
  rw [Finset.range_eq_Ico,
    ← Finset.sum_Ico_consecutive _ (Nat.zero_le k) (le_of_lt hk_rows),
    ← Finset.sum_Ico_consecutive
      (fun t => Lpart G k (swapIdx k r i) t * Wpart G k t (swapIdx k c j))
      (Nat.zero_le k) (le_of_lt hk_rows)]
  congr 1
  -- the low part, columns of L below k and rows of W below k
  · apply Finset.sum_congr rfl
    intro t ht
    rw [Finset.mem_Ico] at ht
    have ht' : t < k := ht.2
    have hLow : Lpart (colSwap (rowSwap G k r) k c) k i t
        = Lpart G k (swapIdx k r i) t := by
      unfold Lpart matL
      rw [if_pos ht', if_pos ht']
      rw [colSwap_rowSwap_apply, swapIdx_of_lt hkc ht']
      by_cases hik : i < k
      · rw [swapIdx_of_lt hkr hik]
      · have h1 : k ≤ swapIdx k r i := swapIdx_ge hkr (Nat.le_of_not_lt hik)
        split_ifs <;> first | rfl | omega
    have hW : Wpart (colSwap (rowSwap G k r) k c) k t j
        = Wpart G k t (swapIdx k c j) := by
      unfold Wpart
      rw [colSwap_rowSwap_apply, swapIdx_of_lt hkr ht']
      by_cases hjk : j < k
      · rw [hjlow hjk]
      · have h1 : k ≤ swapIdx k c j := swapIdx_ge hkc (Nat.le_of_not_lt hjk)
        split_ifs <;> first | rfl | omega
    rw [hLow, hW]
  -- the high part: L is the identity there
  · rw [delta_tail_sum _ _ _ _ le_rfl, delta_tail_sum _ _ _ _ le_rfl]
    simp only [Finset.mem_Ico]
    by_cases hik : i < k
    · have h1 : ¬ (k ≤ i ∧ i < rows) := by omega
      have h2' : swapIdx k r i < k := hikk.mp hik
      have h2 : ¬ (k ≤ swapIdx k r i ∧ swapIdx k r i < rows) := by omega
      rw [if_neg h1, if_neg h2]
    · have h1 : k ≤ swapIdx k r i := swapIdx_ge hkr (Nat.le_of_not_lt hik)
      rw [if_pos ⟨Nat.le_of_not_lt hik, hi⟩, if_pos ⟨h1, hi'⟩]
      unfold Wpart
      rw [colSwap_rowSwap_apply]
      by_cases hjk : j < k
      · have h2 : swapIdx k c j = j := hjlow hjk
        rw [h2]
        split_ifs <;> first | rfl | omega
      · have h2 : k ≤ swapIdx k c j := swapIdx_ge hkc (Nat.le_of_not_lt hjk)
        split_ifs <;> first | rfl | omega

/-- Pointwise description of the buffer after one `luStep`: the guards
`k < rows-1` / `k < size-1` of the source only skip empty regions, so the
buffer is the swapped buffer with the sub-column divided by the pivot and the
trailing block rank-1 updated. -/
theorem luStep_lu (rows cols size k : ℕ) (st : ElimState) (r c : ℕ)
    (hsize : size = min rows cols) (i j : ℕ) :
    (luStep rows cols size k st r c).lu i j =
      (if k < i ∧ i < rows ∧ k < j ∧ j < cols then
         colSwap (rowSwap st.lu k r) k c i j
           - colSwap (rowSwap st.lu k r) k c i k / colSwap (rowSwap st.lu k r) k c k k
             * colSwap (rowSwap st.lu k r) k c k j
       else if j = k ∧ k < i ∧ i < rows then
         colSwap (rowSwap st.lu k r) k c i k / colSwap (rowSwap st.lu k r) k c k k
       else colSwap (rowSwap st.lu k r) k c i j) := by
  by_cases hg1 : k < rows - 1 <;> by_cases hg2 : k < size - 1 <;>
    simp only [luStep, hg1, hg2, if_true, if_false] <;>
    split_ifs <;>
    first
      | rfl
      | omega
      | (simp only [true_and] at *; omega)
      | (rename_i h; obtain ⟨rfl, -, -⟩ := h; rfl)
      | (rename_i h h'; obtain ⟨rfl, -, -⟩ := h; rfl)

/-- The division/rank-1-update phase of step `k` moves one elementary factor
from the working matrix into the L factor: the partial product with
threshold `k+1` over the updated buffer equals the partial product with
threshold `k` over the swapped buffer, provided the pivot is nonzero. -/
theorem elimStep_sum (G' H : Mat) (rows cols k : ℕ)
    (hkr : k < rows) (hkc : k < cols) (hpiv : H k k ≠ 0)
    (hG' : ∀ a b, G' a b =
      if k < a ∧ a < rows ∧ k < b ∧ b < cols then H a b - H a k / H k k * H k b
      else if b = k ∧ k < a ∧ a < rows then H a k / H k k
      else H a b)
    (i j : ℕ) (hi : i < rows) (hj : j < cols) :
    ∑ t ∈ Finset.range rows, Lpart G' (k + 1) i t * Wpart G' (k + 1) t j
      = ∑ t ∈ Finset.range rows, Lpart H k i t * Wpart H k t j := by
  have hk1 : k + 1 ≤ rows := hkr
  have hGkb : ∀ b, G' k b = H k b := by
    intro b
    rw [hG' k b]
    split_ifs <;> first | rfl | omega
  have hWG'k : ∀ b, Wpart G' (k + 1) k b = Wpart H k k b := by
    intro b
    unfold Wpart
    rw [hGkb b]
    split_ifs <;> first | rfl | omega
  rw [Finset.range_eq_Ico,
    ← Finset.sum_Ico_consecutive _ (Nat.zero_le (k + 1)) hk1,
    ← Finset.sum_Ico_consecutive (fun t => Lpart H k i t * Wpart H k t j)
      (Nat.zero_le (k + 1)) hk1,
    Finset.sum_Ico_succ_top (Nat.zero_le k),
    Finset.sum_Ico_succ_top (Nat.zero_le k)]
  have hlow : ∑ t ∈ Finset.Ico 0 k, Lpart G' (k + 1) i t * Wpart G' (k + 1) t j
      = ∑ t ∈ Finset.Ico 0 k, Lpart H k i t * Wpart H k t j := by
    apply Finset.sum_congr rfl
    intro t ht
    rw [Finset.mem_Ico] at ht
    have ht' : t < k := ht.2
    have hL : Lpart G' (k + 1) i t = Lpart H k i t := by
      unfold Lpart matL
      rw [if_pos (by omega : t < k + 1), if_pos ht', hG' i t]
      split_ifs <;> first | rfl | omega
    have hW : Wpart G' (k + 1) t j = Wpart H k t j := by
      unfold Wpart
      rw [hG' t j]
      split_ifs <;> first | rfl | omega
    rw [hL, hW]
  rw [hlow, delta_tail_sum G' (k + 1) (k + 1) rows le_rfl,
    delta_tail_sum H k (k + 1) rows (Nat.le_succ k), add_assoc, add_assoc]
  congr 1
  simp only [Finset.mem_Ico]
  rcases Nat.lt_trichotomy i k with hik | heq | hik
  · have h1 : Lpart G' (k + 1) i k = 0 := by
      unfold Lpart matL
      rw [if_pos (by omega : k < k + 1)]
      split_ifs <;> first | rfl | omega
    have h2 : Lpart H k i k = 0 := by
      unfold Lpart
      split_ifs <;> first | rfl | omega
    rw [h1, h2, if_neg (by omega), if_neg (by omega)]
    ring
  · subst heq
    have h1 : Lpart G' (i + 1) i i = 1 := by
      unfold Lpart matL
      rw [if_pos (by omega : i < i + 1)]
      split_ifs <;> first | rfl | omega
    have h2 : Lpart H i i i = 1 := by
      unfold Lpart
      split_ifs <;> first | rfl | omega
    rw [h1, h2, if_neg (by omega), if_neg (by omega), hWG'k j]
  · have h1 : Lpart G' (k + 1) i k = H i k / H k k := by
      unfold Lpart matL
      rw [if_pos (by omega : k < k + 1)]
      rw [hG' i k]
      split_ifs <;> first | rfl | omega
    have h2 : Lpart H k i k = 0 := by
      unfold Lpart
      split_ifs <;> first | rfl | omega
    rw [h1, h2, if_pos ⟨by omega, hi⟩, if_pos ⟨by omega, hi⟩]
    rcases Nat.lt_trichotomy j k with hjk | heq2 | hjk
    · have w1 : Wpart G' (k + 1) k j = 0 := by
        unfold Wpart; rw [if_pos ⟨by omega, hjk⟩]
      have w2 : Wpart G' (k + 1) i j = 0 := by
        unfold Wpart; rw [if_pos ⟨by omega, by omega⟩]
      have w3 : Wpart H k i j = 0 := by
        unfold Wpart; rw [if_pos ⟨hjk, by omega⟩]
      rw [w1, w2, w3]
      ring
    · subst heq2
      have w1 : Wpart G' (j + 1) j j = H j j := by
        unfold Wpart; rw [if_neg (by omega), hGkb j]
      have w2 : Wpart G' (j + 1) i j = 0 := by
        unfold Wpart; rw [if_pos ⟨by omega, hik⟩]
      have w3 : Wpart H j i j = H i j := by
        unfold Wpart; rw [if_neg (by omega)]
      rw [w1, w2, w3, div_mul_cancel₀ _ hpiv]
      ring
    · have w1 : Wpart G' (k + 1) k j = H k j := by
        unfold Wpart; rw [if_neg (by omega), hGkb j]
      have w2 : Wpart G' (k + 1) i j = H i j - H i k / H k k * H k j := by
        unfold Wpart
        rw [if_neg (by omega), hG' i j, if_pos ⟨hik, hi, hjk, hj⟩]
      have w3 : Wpart H k i j = H i j := by
        unfold Wpart; rw [if_neg (by omega)]
      rw [w1, w2, w3]
      ring

/-- Entries with both indices below `k` are untouched by step `k`. -/
theorem luStep_lu_low (rows cols size k : ℕ) (st : ElimState) (r c : ℕ)
    (hsize : size = min rows cols) (hkr : k ≤ r) (hkc : k ≤ c)
    (a b : ℕ) (ha : a < k) (hb : b < k) :
    (luStep rows cols size k st r c).lu a b = st.lu a b := by
  rw [luStep_lu rows cols size k st r c hsize a b]
  rw [if_neg (by omega), if_neg (by omega), colSwap_rowSwap_apply,
    swapIdx_of_lt hkr ha, swapIdx_of_lt hkc hb]

/-- The reconstruction invariant holds trivially before the first step. -/
theorem ReconInv_zero (A : Mat) (rows cols : ℕ) (es : ElimState) (hlu : es.lu = A) :
    ReconInv A rows cols 0 es := by
  intro i hi j hj
  simp only [List.range_zero, applySwaps]
  rw [Finset.range_eq_Ico, delta_tail_sum es.lu 0 0 rows le_rfl]
  rw [if_pos (by rw [Finset.mem_Ico]; omega)]
  unfold Wpart
  rw [if_neg (by omega), hlu]

/-- Full correctness record of the elimination loop at exact precision `0`:
the final rank lies in `[k, size]`, transposition records below `k` are
preserved and all records are in range, every pivot on the diagonal below the
final rank is nonzero, the reconstruction invariant transports to the final
state, and the untouched trailing corner is identically zero. -/
theorem luLoop_spec (A : Mat) (rows cols size : ℕ) (hsize : size = min rows cols) :
    ∀ (n k : ℕ) (st : ElimState) (biggest : ℚ), k + n = size →
    ReconInv A rows cols k st →
    (∀ t, t < k → st.lu t t ≠ 0) →
    k ≤ (luLoop rows cols size 0 biggest k n st).2 ∧
    (luLoop rows cols size 0 biggest k n st).2 ≤ size ∧
    (∀ t, t < k →
      (luLoop rows cols size 0 biggest k n st).1.rowT t = st.rowT t ∧
      (luLoop rows cols size 0 biggest k n st).1.colT t = st.colT t) ∧
    (∀ t, k ≤ t → t < size →
      t ≤ (luLoop rows cols size 0 biggest k n st).1.rowT t ∧
      (luLoop rows cols size 0 biggest k n st).1.rowT t < rows ∧
      t ≤ (luLoop rows cols size 0 biggest k n st).1.colT t ∧
      (luLoop rows cols size 0 biggest k n st).1.colT t < cols) ∧
    (∀ t, (luLoop rows cols size 0 biggest k n st).2 ≤ t → t < size →
      (luLoop rows cols size 0 biggest k n st).1.rowT t = t ∧
      (luLoop rows cols size 0 biggest k n st).1.colT t = t) ∧
    (∀ t, t < (luLoop rows cols size 0 biggest k n st).2 →
      (luLoop rows cols size 0 biggest k n st).1.lu t t ≠ 0) ∧
    ReconInv A rows cols (luLoop rows cols size 0 biggest k n st).2
      (luLoop rows cols size 0 biggest k n st).1 ∧
    (∀ i j, (luLoop rows cols size 0 biggest k n st).2 ≤ i → i < rows →
      (luLoop rows cols size 0 biggest k n st).2 ≤ j → j < cols →
      (luLoop rows cols size 0 biggest k n st).1.lu i j = 0) := by
  intro n
  induction n with
  | zero =>
    intro k st biggest hkn hInv hdiag
    have hk : k = size := by omega
    subst hk
    simp only [luLoop]
    refine ⟨le_rfl, le_rfl, fun t _ => ⟨by trivial, by trivial⟩, fun t h1 h2 => by omega,
      fun t h1 h2 => by omega, fun t ht => hdiag t ht, hInv, ?_⟩
    intro i j h1 h2 h3 h4
    omega
  | succ n ih =>
    intro k st biggest hkn hInv hdiag
    have hk_lt : k < size := by omega
    have hk_rows : k < rows := by omega
    have hk_cols : k < cols := by omega
    have hspec := cornerArgmax_spec st.lu rows cols k hk_rows hk_cols
    simp only [luLoop]
    by_cases htest : ei_isMuchSmallerThan (cornerArgmax st.lu rows cols k).2.2
        (if k = 0 then (cornerArgmax st.lu rows cols k).2.2 else biggest) 0
    · rw [if_pos htest]
      have hbic0 : (cornerArgmax st.lu rows cols k).2.2 = 0 := by
        unfold ei_isMuchSmallerThan at htest
        rw [mul_zero, ei_abs_eq_abs] at htest
        exact abs_nonpos_iff.mp htest
      have hcorner : ∀ i j, k ≤ i → i < rows → k ≤ j → j < cols → st.lu i j = 0 := by
        intro i j h1 h2 h3 h4
        have hle := hspec.2.2 i j h1 h2 h3 h4
        rw [hbic0, ei_abs_eq_abs] at hle
        exact abs_nonpos_iff.mp hle
      refine ⟨le_rfl, le_of_lt hk_lt, ?_, ?_, ?_, ?_, ?_, ?_⟩
      · intro t ht
        have hcond : ¬ (k ≤ t ∧ t < size) := by omega
        constructor <;> simp only [fillIdentity] <;> rw [if_neg hcond]
      · intro t h1 h2
        have hcond : k ≤ t ∧ t < size := ⟨h1, h2⟩
        simp only [fillIdentity]
        rw [if_pos hcond, if_pos hcond]
        refine ⟨le_rfl, by omega, le_rfl, by omega⟩
      · intro t h1 h2
        have hcond : k ≤ t ∧ t < size := ⟨h1, h2⟩
        simp only [fillIdentity]
        rw [if_pos hcond, if_pos hcond]
        exact ⟨rfl, rfl⟩
      · intro t ht
        exact hdiag t ht
      · intro i hi j hj
        have e1 : applySwaps (fillIdentity st.rowT k size) (List.range k) i
            = applySwaps st.rowT (List.range k) i := by
          apply applySwaps_congr
          intro x hx
          rw [List.mem_range] at hx
          simp only [fillIdentity]
          rw [if_neg (by omega)]
        have e2 : applySwaps (fillIdentity st.colT k size) (List.range k) j
            = applySwaps st.colT (List.range k) j := by
          apply applySwaps_congr
          intro x hx
          rw [List.mem_range] at hx
          simp only [fillIdentity]
          rw [if_neg (by omega)]
        rw [e1, e2]
        exact hInv i hi j hj
      · intro i j h1 h2 h3 h4
        exact hcorner i j h1 h2 h3 h4
    · rw [if_neg htest]
      -- the pivot is nonzero
      have hbic_ne : (cornerArgmax st.lu rows cols k).2.2 ≠ 0 := by
        intro h0
        apply htest
        unfold ei_isMuchSmallerThan
        rw [h0, mul_zero, ei_abs_eq_abs, abs_zero]
      set r := (cornerArgmax st.lu rows cols k).1 with hr
      set c := (cornerArgmax st.lu rows cols k).2.1 with hc
      have hkr : k ≤ r := hspec.2.1.1
      have hrlt : r < rows := hspec.2.1.2.1
      have hkc : k ≤ c := hspec.2.1.2.2.1
      have hclt : c < cols := hspec.2.1.2.2.2
      have hpiv_rc : st.lu r c ≠ 0 := by
        intro h0
        apply hbic_ne
        rw [hspec.1, h0, ei_abs_eq_abs, abs_zero]
      set st' := luStep rows cols size k st r c with hst'
      set H := colSwap (rowSwap st.lu k r) k c with hH
      have hHkk : H k k = st.lu r c := by
        rw [hH, colSwap_rowSwap_apply, swapIdx_left, swapIdx_left]
      have hpiv : H k k ≠ 0 := by rw [hHkk]; exact hpiv_rc
      have hG' : ∀ a b, st'.lu a b =
          if k < a ∧ a < rows ∧ k < b ∧ b < cols then H a b - H a k / H k k * H k b
          else if b = k ∧ k < a ∧ a < rows then H a k / H k k
          else H a b := by
        intro a b
        rw [hst', hH]
        exact luStep_lu rows cols size k st r c hsize a b
      -- the invariant transports through the step
      have hInv' : ReconInv A rows cols (k + 1) st' := by
        intro i hi j hj
        have hi' : swapIdx k r i < rows := swapIdx_lt hk_rows hrlt hi
        have hj' : swapIdx k c j < cols := swapIdx_lt hk_cols hclt hj
        have hrow : applySwaps st'.rowT (List.range (k + 1)) i
            = applySwaps st.rowT (List.range k) (swapIdx k r i) := by
          rw [List.range_succ, applySwaps_append]
          have h1 : applySwaps st'.rowT [k] i = swapIdx k r i := by
            simp only [applySwaps]
            have hrk : st'.rowT k = r := by
              rw [hst']; simp [luStep]
            rw [hrk]
          rw [h1]
          apply applySwaps_congr
          intro x hx
          rw [List.mem_range] at hx
          rw [hst']
          simp only [luStep]
          rw [if_neg (by omega)]
        have hcol : applySwaps st'.colT (List.range (k + 1)) j
            = applySwaps st.colT (List.range k) (swapIdx k c j) := by
          rw [List.range_succ, applySwaps_append]
          have h1 : applySwaps st'.colT [k] j = swapIdx k c j := by
            simp only [applySwaps]
            have hck : st'.colT k = c := by
              rw [hst']; simp [luStep]
            rw [hck]
          rw [h1]
          apply applySwaps_congr
          intro x hx
          rw [List.mem_range] at hx
          rw [hst']
          simp only [luStep]
          rw [if_neg (by omega)]
        rw [hrow, hcol, hInv (swapIdx k r i) hi' (swapIdx k c j) hj']
        rw [← swapStep_sum st.lu rows cols k r c hkr hrlt hkc hclt i j hi hj]
        rw [← hH]
        exact (elimStep_sum st'.lu H rows cols k hk_rows hk_cols hpiv hG' i j hi hj).symm
      have hdiag' : ∀ t, t < k + 1 → st'.lu t t ≠ 0 := by
        intro t ht
        by_cases htk : t < k
        · rw [hst', luStep_lu_low rows cols size k st r c hsize hkr hkc t t htk htk]
          exact hdiag t htk
        · have : t = k := by omega
          subst this
          rw [hG' t t]
          rw [if_neg (by omega), if_neg (by omega)]
          exact hpiv
      have := ih (k + 1) st' (if k = 0 then (cornerArgmax st.lu rows cols k).2.2 else biggest)
        (by omega) hInv' hdiag'
      obtain ⟨c1, c2, c3, c4, c4b, c5, c6, c7⟩ := this
      refine ⟨by omega, c2, ?_, ?_, fun t h1 h2 => c4b t (by omega) h2, c5, c6, c7⟩
      · intro t ht
        have h3 := c3 t (by omega)
        have htk : t ≠ k := by omega
        rw [h3.1, h3.2, hst']
        simp only [luStep]
        rw [if_neg htk, if_neg htk]
        exact ⟨rfl, rfl⟩
      · intro t h1 h2
        by_cases htk : t = k
        · subst htk
          have h3 := c3 t (by omega)
          have e1 : (luStep rows cols size t st r c).rowT t = r := by simp [luStep]
          have e2 : (luStep rows cols size t st r c).colT t = c := by simp [luStep]
          rw [h3.1, h3.2, hst', e1, e2]
          exact ⟨hkr, hrlt, hkc, hclt⟩
        · exact c4 t (by omega) h2

/-- Records that are identity beyond `rank` contribute nothing to the replay:
the full-size replay equals the replay of the first `rank` records. -/
theorem applySwaps_range_of_fix_above (t : ℕ → ℕ) (rank size : ℕ) (hle : rank ≤ size)
    (hfix : ∀ x, rank ≤ x → x < size → t x = x) (i : ℕ) :
    applySwaps t (List.range size) i = applySwaps t (List.range rank) i := by
  obtain ⟨d, rfl⟩ : ∃ d, size = rank + d := ⟨size - rank, by omega⟩
  rw [List.range_add, applySwaps_append]
  congr 1
  apply applySwaps_of_fix
  intro x hx
  rw [List.mem_map] at hx
  obtain ⟨y, hy, rfl⟩ := hx
  rw [List.mem_range] at hy
  exact hfix (rank + y) (by omega) (by omega)

/-- The full correctness record of `luElim` (precision `epsilon * size = 0`). -/
theorem luElim_spec (A : Mat) (rows cols : ℕ) :
    (luElim A rows cols).2 ≤ min rows cols ∧
    (∀ t, t < min rows cols →
      t ≤ (luElim A rows cols).1.rowT t ∧ (luElim A rows cols).1.rowT t < rows ∧
      t ≤ (luElim A rows cols).1.colT t ∧ (luElim A rows cols).1.colT t < cols) ∧
    (∀ t, (luElim A rows cols).2 ≤ t → t < min rows cols →
      (luElim A rows cols).1.rowT t = t ∧ (luElim A rows cols).1.colT t = t) ∧
    (∀ t, t < (luElim A rows cols).2 → (luElim A rows cols).1.lu t t ≠ 0) ∧
    ReconInv A rows cols (luElim A rows cols).2 (luElim A rows cols).1 ∧
    (∀ i j, (luElim A rows cols).2 ≤ i → i < rows → (luElim A rows cols).2 ≤ j → j < cols →
      (luElim A rows cols).1.lu i j = 0) := by
  have hprec : epsilonQ * ((min rows cols : ℕ) : ℚ) = 0 := by
    simp [epsilonQ]
  have hElim : luElim A rows cols
      = luLoop rows cols (min rows cols) 0 0 0 (min rows cols)
        { lu := A, rowT := fun i => i, colT := fun i => i, nT := 0 } := by
    simp only [luElim]
    rw [hprec]
  have hspec := luLoop_spec A rows cols (min rows cols) rfl (min rows cols) 0
    { lu := A, rowT := fun i => i, colT := fun i => i, nT := 0 } 0
    (by omega) (ReconInv_zero A rows cols _ rfl) (fun t ht => by omega)
  rw [hElim]
  obtain ⟨c1, c2, c3, c4, c4b, c5, c6, c7⟩ := hspec
  exact ⟨c2, fun t ht => c4 t (Nat.zero_le t) ht, c4b, c5, c6, c7⟩

/-- Conversion of the invariant form of the product to the `L * U` form read
from `matrixLU()`, valid once the trailing corner is zero. -/
theorem LW_eq_LU (G : Mat) (rows cols rank : ℕ)
    (hrank : rank ≤ min rows cols)
    (hz : ∀ a b, rank ≤ a → a < rows → rank ≤ b → b < cols → G a b = 0)
    (i j : ℕ) (hi : i < rows) (hj : j < cols) :
    ∑ t ∈ Finset.range rows, Lpart G rank i t * Wpart G rank t j
      = ∑ t ∈ Finset.range (min rows cols), matL G i t * matU G t j := by
  have hsz : min rows cols ≤ rows := Nat.min_le_left rows cols
  rw [Finset.range_eq_Ico,
    ← Finset.sum_Ico_consecutive (fun t => Lpart G rank i t * Wpart G rank t j)
      (Nat.zero_le (min rows cols)) hsz]
  have htail : ∑ t ∈ Finset.Ico (min rows cols) rows,
      Lpart G rank i t * Wpart G rank t j = 0 := by
    apply Finset.sum_eq_zero
    intro t ht
    rw [Finset.mem_Ico] at ht
    have h1 : Lpart G rank i t = if t = i then 1 else 0 := by
      unfold Lpart
      rw [if_neg (by omega)]
    rw [h1]
    by_cases hti : t = i
    · subst hti
      have h2 : Wpart G rank t j = 0 := by
        unfold Wpart
        by_cases hcond : j < rank ∧ j < t
        · rw [if_pos hcond]
        · rw [if_neg hcond]
          apply hz t j (by omega) ht.2 (by omega) hj
      rw [h2, mul_zero]
    · rw [if_neg hti, zero_mul]
  rw [htail, add_zero]
  apply Finset.sum_congr rfl
  intro t ht
  rw [Finset.mem_Ico] at ht
  have ht' : t < min rows cols := ht.2
  by_cases htr : t < rank
  · have hL : Lpart G rank i t = matL G i t := by
      unfold Lpart
      rw [if_pos htr]
    have hW : Wpart G rank t j = matU G t j := by
      unfold Wpart matU
      split_ifs <;> first | rfl | omega
    rw [hL, hW]
  · have hL : Lpart G rank i t = matL G i t := by
      unfold Lpart matL
      rw [if_neg htr]
      by_cases hti : t = i
      · rw [if_pos hti, if_pos hti]
      · rw [if_neg hti, if_neg hti]
        by_cases hlt : t < i
        · rw [if_pos hlt, hz i t (by omega) hi (by omega) (by omega)]
        · rw [if_neg hlt]
    have hW : Wpart G rank t j = matU G t j := by
      unfold Wpart matU
      by_cases hle : t ≤ j
      · have hc : ¬ (j < rank ∧ j < t) := by omega
        rw [if_pos hle, if_neg hc]
      · rw [if_neg hle]
        by_cases hjr : j < rank
        · rw [if_pos ⟨hjr, by omega⟩]
        · have hc : ¬ (j < rank ∧ j < t) := by omega
          rw [if_neg hc, hz t j (by omega) (by omega) (by omega) hj]
    rw [hL, hW]

/-- Multiplying by `permMat p` on the left gathers row `σ i`, where `σ` is
the two-sided inverse of `p`. -/
theorem permMat_mul_apply (p σ : ℕ → ℕ) (M : Mat) (n : ℕ)
    (hcancel : ∀ x, p (σ x) = x) (hcancel' : ∀ x, σ (p x) = x)
    (hσ : ∀ x, x < n → σ x < n) (i j : ℕ) (hi : i < n) :
    mulMat (permMat p) M n i j = M (σ i) j := by
  unfold mulMat permMat
  have hterm : ∀ a ∈ Finset.range n,
      (if i = p a then (1 : ℚ) else 0) * M a j = if a = σ i then M a j else 0 := by
    intro a _
    by_cases h : a = σ i
    · subst h
      rw [if_pos (hcancel i).symm, one_mul, if_pos rfl]
    · rw [if_neg, zero_mul, if_neg h]
      intro he
      exact h (by rw [he, hcancel' a])
  rw [Finset.sum_congr rfl hterm, Finset.sum_ite_eq' (Finset.range n) (σ i),
    if_pos (Finset.mem_range.mpr (hσ i hi))]

/-- Multiplying by `permMat q` on the right gathers column `q j`. -/
theorem mul_permMat_apply (q : ℕ → ℕ) (M : Mat) (n : ℕ) (i j : ℕ) (hqj : q j < n) :
    mulMat M (permMat q) n i j = M i (q j) := by
  unfold mulMat permMat
  rw [Finset.sum_congr rfl (fun b _ => by rw [mul_ite, mul_one, mul_zero]),
    Finset.sum_ite_eq' (Finset.range n) (q j), if_pos (Finset.mem_range.mpr hqj)]

theorem compute_m_lu (st0 : LUState) (A : Mat) (rows cols : ℕ) :
    (st0.compute A rows cols).m_lu = (luElim A rows cols).1.lu := rfl

theorem compute_m_rank (st0 : LUState) (A : Mat) (rows cols : ℕ) :
    (st0.compute A rows cols).m_rank = (luElim A rows cols).2 := rfl

theorem compute_m_p (st0 : LUState) (A : Mat) (rows cols : ℕ) :
    (st0.compute A rows cols).m_p
      = applySwaps (luElim A rows cols).1.rowT (List.range (min rows cols)).reverse := rfl

theorem compute_m_q (st0 : LUState) (A : Mat) (rows cols : ℕ) :
    (st0.compute A rows cols).m_q
      = applySwaps (luElim A rows cols).1.colT (List.range (min rows cols)) := rfl

/-- Every index in the reversed row-replay list is a valid in-range swap. -/
theorem rowT_swaps_in_range (A : Mat) (rows cols : ℕ) :
    ∀ kk ∈ (List.range (min rows cols)).reverse,
      kk < rows ∧ (luElim A rows cols).1.rowT kk < rows := by
  intro kk hkk
  rw [List.mem_reverse, List.mem_range] at hkk
  have hb := (luElim_spec A rows cols).2.1 kk hkk
  exact ⟨lt_of_lt_of_le hkk (Nat.min_le_left rows cols), hb.2.1⟩

/-- Every index in the column-replay list is a valid in-range swap. -/
theorem colT_swaps_in_range (A : Mat) (rows cols : ℕ) :
    ∀ kk ∈ List.range (min rows cols),
      kk < cols ∧ (luElim A rows cols).1.colT kk < cols := by
  intro kk hkk
  rw [List.mem_range] at hkk
  have hb := (luElim_spec A rows cols).2.1 kk hkk
  exact ⟨lt_of_lt_of_le hkk (Nat.min_le_right rows cols), hb.2.2.2⟩

theorem compute_p_lt (st0 : LUState) (A : Mat) (rows cols : ℕ) :
    ∀ i, i < rows → (st0.compute A rows cols).m_p i < rows := by
  intro i hi
  rw [compute_m_p]
  exact applySwaps_lt (rowT_swaps_in_range A rows cols) i hi

theorem compute_q_lt (st0 : LUState) (A : Mat) (rows cols : ℕ) :
    ∀ j, j < cols → (st0.compute A rows cols).m_q j < cols := by
  intro j hj
  rw [compute_m_q]
  apply applySwaps_lt _ j hj
  intro kk hkk
  exact colT_swaps_in_range A rows cols kk hkk

/-- The pointwise reconstruction identity: the original matrix, column-gathered
through `m_q` and row-scattered through `m_p`, equals the product of the unit
lower and upper factors read from the combined buffer. -/
theorem compute_recon_pointwise (st0 : LUState) (A : Mat) (rows cols : ℕ) :
    ∀ i, i < rows → ∀ j, j < cols →
      A i ((st0.compute A rows cols).m_q j)
        = ∑ t ∈ Finset.range (min rows cols),
            matL (st0.compute A rows cols).m_lu ((st0.compute A rows cols).m_p i) t
              * matU (st0.compute A rows cols).m_lu t j := by
  intro i hi j hj
  obtain ⟨e1, e2, e3, e4, e5, e6⟩ := luElim_spec A rows cols
  have hpi : (st0.compute A rows cols).m_p i < rows := compute_p_lt st0 A rows cols i hi
  have hrec := e5 ((st0.compute A rows cols).m_p i) hpi j hj
  rw [← applySwaps_range_of_fix_above (luElim A rows cols).1.rowT (luElim A rows cols).2
      (min rows cols) e1 (fun x h1 h2 => (e3 x h1 h2).1)] at hrec
  rw [← applySwaps_range_of_fix_above (luElim A rows cols).1.colT (luElim A rows cols).2
      (min rows cols) e1 (fun x h1 h2 => (e3 x h1 h2).2)] at hrec
  rw [compute_m_p, applySwaps_reverse_cancel] at hrec
  rw [compute_m_q, compute_m_lu]
  rw [hrec]
  exact LW_eq_LU (luElim A rows cols).1.lu rows cols (luElim A rows cols).2 e1 e6
    ((st0.compute A rows cols).m_p i) j hpi hj

/-- C1: for every `rows × cols` matrix `A`, after `compute(A)`, the
permutation matrices realized by `permutationP()` and `permutationQ()`,
the unit-lower factor `L` and the upper factor `U` read from `matrixLU()`
satisfy `P·A·Q = L·U` elementwise — exactly, over the exact-arithmetic
embedding. -/
theorem C1_reconstruction_PAQ_eq_LU (A : Mat) (rows cols : ℕ) (i j : ℕ)
    (hi : i < rows) (hj : j < cols) :
    mulMat (mulMat (permMat (LUState.fresh.compute A rows cols).m_p) A rows)
        (permMat (LUState.fresh.compute A rows cols).m_q) cols i j
      = mulMat (matL (LUState.fresh.compute A rows cols).m_lu)
          (matU (LUState.fresh.compute A rows cols).m_lu) (min rows cols) i j := by
  have hqj : (LUState.fresh.compute A rows cols).m_q j < cols :=
    compute_q_lt _ A rows cols j hj
  rw [mul_permMat_apply _ _ cols i j hqj]
  have hcancel : ∀ x, (LUState.fresh.compute A rows cols).m_p
      (applySwaps (luElim A rows cols).1.rowT (List.range (min rows cols)) x) = x := by
    intro x
    rw [compute_m_p]
    exact applySwaps_cancel_reverse _ _ x
  have hcancel' : ∀ x, applySwaps (luElim A rows cols).1.rowT (List.range (min rows cols))
      ((LUState.fresh.compute A rows cols).m_p x) = x := by
    intro x
    rw [compute_m_p]
    exact applySwaps_reverse_cancel _ _ x
  have hσlt : ∀ x, x < rows →
      applySwaps (luElim A rows cols).1.rowT (List.range (min rows cols)) x < rows := by
    intro x hx
    apply applySwaps_lt _ x hx
    intro kk hkk
    exact rowT_swaps_in_range A rows cols kk (List.mem_reverse.mpr hkk)
  rw [permMat_mul_apply _ _ A rows hcancel hcancel' hσlt i _ hi]
  have hσi : applySwaps (luElim A rows cols).1.rowT (List.range (min rows cols)) i < rows :=
    hσlt i hi
  have := compute_recon_pointwise LUState.fresh A rows cols _ hσi j hj
  rw [this, hcancel i]
  rfl

/-- C1 witness at a concrete input: the 2 × 2 matrix `[[0,1],[2,3]]`, whose
pivoting is nontrivial (both a row and a column swap occur). -/
theorem C1_reconstruction_PAQ_eq_LU_witness :
    (0 : ℕ) < 2 ∧ (1 : ℕ) < 2 ∧
      mulMat (mulMat (permMat (LUState.fresh.compute
            (fun i j => if i = 0 ∧ j = 0 then 0 else if i = 0 ∧ j = 1 then 1
              else if i = 1 ∧ j = 0 then 2 else if i = 1 ∧ j = 1 then 3 else 0) 2 2).m_p)
          (fun i j => if i = 0 ∧ j = 0 then 0 else if i = 0 ∧ j = 1 then 1
            else if i = 1 ∧ j = 0 then 2 else if i = 1 ∧ j = 1 then 3 else 0) 2)
        (permMat (LUState.fresh.compute
            (fun i j => if i = 0 ∧ j = 0 then 0 else if i = 0 ∧ j = 1 then 1
              else if i = 1 ∧ j = 0 then 2 else if i = 1 ∧ j = 1 then 3 else 0) 2 2).m_q) 2 0 1
      = mulMat (matL (LUState.fresh.compute
            (fun i j => if i = 0 ∧ j = 0 then 0 else if i = 0 ∧ j = 1 then 1
              else if i = 1 ∧ j = 0 then 2 else if i = 1 ∧ j = 1 then 3 else 0) 2 2).m_lu)
          (matU (LUState.fresh.compute
            (fun i j => if i = 0 ∧ j = 0 then 0 else if i = 0 ∧ j = 1 then 1
              else if i = 1 ∧ j = 0 then 2 else if i = 1 ∧ j = 1 then 3 else 0) 2 2).m_lu)
          (min 2 2) 0 1 :=
  ⟨by decide, by decide,
    C1_reconstruction_PAQ_eq_LU _ 2 2 0 1 (by decide) (by decide)⟩

/-- C5: after compute, `m_p` is the identity with the recorded row
transpositions replayed in reverse order (`k` from `size-1` down to `0`,
realized as the reversed index list) and `m_q` is the identity with the
recorded column transpositions replayed forward; each vector holds every
index of `{0,…,rows-1}` resp. `{0,…,cols-1}` exactly once. -/
theorem C5_permutation_vectors (A : Mat) (rows cols : ℕ) :
    (LUState.fresh.compute A rows cols).m_p
        = applySwaps (luElim A rows cols).1.rowT (List.range (min rows cols)).reverse ∧
    (LUState.fresh.compute A rows cols).m_q
        = applySwaps (luElim A rows cols).1.colT (List.range (min rows cols)) ∧
    ((List.range rows).map (LUState.fresh.compute A rows cols).m_p).Perm
      (List.range rows) ∧
    ((List.range cols).map (LUState.fresh.compute A rows cols).m_q).Perm
      (List.range cols) := by
  refine ⟨rfl, rfl, ?_, ?_⟩
  · rw [compute_m_p]
    exact applySwaps_range_perm _ _ rows (rowT_swaps_in_range A rows cols)
  · rw [compute_m_q]
    exact applySwaps_range_perm _ _ cols (colT_swaps_in_range A rows cols)

/-- C6: after compute, `determinant()` returns `m_det_pq` times the product
of the diagonal of the combined LU matrix when the matrix is square, and
fails with the not-square assertion otherwise. -/
theorem C6_determinant (st0 : LUState) (A : Mat) (rows cols : ℕ) :
    (st0.compute A rows cols).determinant
      = if rows = cols then
          .ok (((st0.compute A rows cols).m_det_pq : ℚ)
            * ∏ i ∈ Finset.range rows, (st0.compute A rows cols).m_lu i i)
        else .error .notSquare := by
  by_cases h : rows = cols <;>
    simp [LUState.determinant, LUState.compute, h]

/-- C9: every compute-dependent accessor on a freshly constructed instance
fails the "LU is not initialized" precondition assertion; after a successful
`compute`, none of them fails that precondition (though `determinant` may
still fail its separate square-matrix assertion and `solve` its row-count
assertion). -/
theorem C9_two_phase_lifecycle (A B : Mat) (rows cols brows bcols : ℕ) :
    (LUState.fresh.matrixLU = .error .notInitialized ∧
     LUState.fresh.permutationP = .error .notInitialized ∧
     LUState.fresh.permutationQ = .error .notInitialized ∧
     LUState.fresh.rank = .error .notInitialized ∧
     LUState.fresh.dimensionOfKernel = .error .notInitialized ∧
     LUState.fresh.isInjective = .error .notInitialized ∧
     LUState.fresh.isSurjective = .error .notInitialized ∧
     LUState.fresh.isInvertible = .error .notInitialized ∧
     LUState.fresh.determinant = .error .notInitialized ∧
     LUState.fresh.solve B brows bcols = .error .notInitialized ∧
     LUState.fresh.kernel = .error .notInitialized ∧
     LUState.fresh.image = .error .notInitialized) ∧
    ((LUState.fresh.compute A rows cols).matrixLU ≠ .error .notInitialized ∧
     (LUState.fresh.compute A rows cols).permutationP ≠ .error .notInitialized ∧
     (LUState.fresh.compute A rows cols).permutationQ ≠ .error .notInitialized ∧
     (LUState.fresh.compute A rows cols).rank ≠ .error .notInitialized ∧
     (LUState.fresh.compute A rows cols).dimensionOfKernel ≠ .error .notInitialized ∧
     (LUState.fresh.compute A rows cols).isInjective ≠ .error .notInitialized ∧
     (LUState.fresh.compute A rows cols).isSurjective ≠ .error .notInitialized ∧
     (LUState.fresh.compute A rows cols).isInvertible ≠ .error .notInitialized ∧
     (LUState.fresh.compute A rows cols).determinant ≠ .error .notInitialized ∧
     (LUState.fresh.compute A rows cols).solve B brows bcols ≠ .error .notInitialized ∧
     (LUState.fresh.compute A rows cols).kernel ≠ .error .notInitialized ∧
     (LUState.fresh.compute A rows cols).image ≠ .error .notInitialized) := by
  constructor
  · refine ⟨rfl, rfl, rfl, rfl, rfl, rfl, rfl, rfl, rfl, rfl, rfl, rfl⟩
  · refine ⟨?_, ?_, ?_, ?_, ?_, ?_, ?_, ?_, ?_, ?_, ?_, ?_⟩ <;>
      simp only [LUState.matrixLU, LUState.permutationP, LUState.permutationQ,
        LUState.rank, LUState.dimensionOfKernel, LUState.isInjective,
        LUState.isSurjective, LUState.isInvertible, LUState.determinant,
        LUState.solve, LUState.kernel, LUState.image, LUState.compute] <;>
      first
        | (intro h; cases h)
        | (split_ifs <;> intro h <;> simp_all)

/-- C7: after compute, the image has exactly `m_rank` columns and column `i`
of the image equals column `m_q i` of the original matrix, elementwise. -/
theorem C7_image_basis (st0 : LUState) (A : Mat) (rows cols a i : ℕ)
    (hi : i < (st0.compute A rows cols).m_rank) :
    (st0.compute A rows cols).image
        = .ok (luComputeImage (st0.compute A rows cols) A, rows,
            (st0.compute A rows cols).m_rank) ∧
      luComputeImage (st0.compute A rows cols) A a i
        = A a ((st0.compute A rows cols).m_q i) := by
  constructor
  · rfl
  · unfold luComputeImage
    rw [if_pos hi]

/-- C7 witness: the 1 × 1 identity matrix has rank 1 and its image is its own
single column. -/
theorem C7_image_basis_witness :
    (0 : ℕ) < ((LUState.fresh.compute (fun _ _ => 1) 1 1).m_rank) ∧
      ((LUState.fresh.compute (fun _ _ => 1) 1 1).image
          = .ok (luComputeImage (LUState.fresh.compute (fun _ _ => 1) 1 1) (fun _ _ => 1),
              1, (LUState.fresh.compute (fun _ _ => 1) 1 1).m_rank) ∧
        luComputeImage (LUState.fresh.compute (fun _ _ => 1) 1 1) (fun _ _ => 1) 0 0
          = (fun (_ _ : ℕ) => (1 : ℚ)) 0
              ((LUState.fresh.compute (fun _ _ => 1) 1 1).m_q 0)) :=
  have hrank : (LUState.fresh.compute (fun _ _ => 1) 1 1).m_rank = 1 := by decide
  ⟨by rw [hrank]; decide,
    C7_image_basis LUState.fresh (fun _ _ => 1) 1 1 0 0 (by rw [hrank]; decide)⟩

/-- A row not targeted by any write of a row-scatter fold keeps its prior
value. -/
theorem foldl_updateRow_not_mem (f : ℕ → ℕ) (g : ℕ → ℕ → ℚ) (l : List ℕ) (init : Mat)
    (x : ℕ) (hx : ∀ i ∈ l, f i ≠ x) (col : ℕ) :
    (l.foldl (fun d i => updateRow d (f i) (g i)) init) x col = init x col := by
  induction l generalizing init with
  | nil => rfl
  | cons a l' ih =>
    simp only [List.foldl_cons]
    rw [ih _ (fun i hi => hx i (List.mem_cons_of_mem a hi))]
    unfold updateRow
    rw [if_neg (fun h => hx a (List.mem_cons_self a l') h.symm)]

/-- The row written by iteration `i0` of a row-scatter fold holds `g i0`
afterwards, when no other iteration targets the same row. -/
theorem foldl_updateRow_mem (f : ℕ → ℕ) (g : ℕ → ℕ → ℚ) (l : List ℕ) (init : Mat)
    (i0 : ℕ) (hmem : i0 ∈ l) (huniq : ∀ b ∈ l, f b = f i0 → b = i0) (col : ℕ) :
    (l.foldl (fun d i => updateRow d (f i) (g i)) init) (f i0) col = g i0 col := by
  induction l generalizing init with
  | nil => cases hmem
  | cons a l' ih =>
    simp only [List.foldl_cons]
    by_cases h : i0 ∈ l'
    · exact ih _ h (fun b hb => huniq b (List.mem_cons_of_mem a hb))
    · have ha : i0 = a := by
        rcases List.mem_cons.mp hmem with h1 | h2
        · exact h1
        · exact absurd h2 h
      subst ha
      rw [foldl_updateRow_not_mem f g l' _ (f i0)
        (fun i hi hfi => h ((huniq i (List.mem_cons_of_mem i0 hi) hfi) ▸ hi))]
      unfold updateRow
      rw [if_pos rfl]

/-- Entry view of the unit-planting fold of `computeKernel`: entry `(x, col)`
is `1` exactly when iteration `col` planted it, and the prior value
otherwise. -/
theorem foldl_setOne_apply (f : ℕ → ℕ) (l : List ℕ) (init : Mat) (x col : ℕ) :
    (l.foldl (fun r t => fun i j => if i = f t ∧ j = t then 1 else r i j) init) x col
      = if col ∈ l ∧ x = f col then 1 else init x col := by
  induction l generalizing init with
  | nil => simp
  | cons a l' ih =>
    simp only [List.foldl_cons]
    rw [ih]
    by_cases hcol : col ∈ l' ∧ x = f col
    · rw [if_pos hcol, if_pos ⟨List.mem_cons_of_mem a hcol.1, hcol.2⟩]
    · rw [if_neg hcol]
      by_cases h3 : x = f a ∧ col = a
      · rw [if_pos h3, if_pos ⟨by rw [h3.2]; exact List.mem_cons_self a l',
          by rw [h3.2]; exact h3.1⟩]
      · rw [if_neg h3, if_neg ?_]
        rintro ⟨hm, hx⟩
        rcases List.mem_cons.mp hm with h1 | h2
        · exact h3 ⟨by rw [← h1]; exact hx, h1⟩
        · exact hcol ⟨h2, hx⟩

theorem compute_q_injective (st0 : LUState) (A : Mat) (rows cols : ℕ) :
    Function.Injective (st0.compute A rows cols).m_q := by
  rw [compute_m_q]
  exact applySwaps_injective _ _

/-- Entries of the kernel matrix at the "free" rows `m_q (rank + t)`: an
identity block, for any state whose column permutation is injective. -/
theorem luComputeKernel_free_rows (st : LUState) (hqinj : Function.Injective st.m_q)
    (t k : ℕ) (ht : t < st.cols - st.m_rank) (hk : k < st.cols - st.m_rank) :
    luComputeKernel st (st.m_q (st.m_rank + t)) k = if t = k then 1 else 0 := by
  simp only [luComputeKernel]
  rw [foldl_setOne_apply (fun u => st.m_q (st.m_rank + u))]
  by_cases htk : t = k
  · subst htk
    rw [if_pos ⟨List.mem_range.mpr hk, rfl⟩, if_pos rfl]
  · rw [if_neg (fun h => htk (by have := hqinj h.2; omega)), if_neg htk]
    rw [foldl_updateRow_mem (fun u => st.m_q (st.m_rank + u)) (fun _ _ => 0)
      (List.range (st.cols - st.m_rank)) _ t (List.mem_range.mpr ht)
      (fun b _ hb => by have := hqinj hb; omega)]

/-- C10: for a computed factorization and any column index `k` below the
kernel dimension (so any factorization with kernel dimension at least one),
the `k`-th kernel column holds the scalar `1` at row `m_q (rank + k)` and `0`
at row `m_q (rank + j)` for every other free index `j`; consequently the rows
at the free positions form an identity block and any vanishing linear
combination of the kernel columns has zero coefficients. -/
theorem C10_kernel_identity_block (st0 : LUState) (A : Mat) (rows cols k : ℕ)
    (hk : k < cols - (st0.compute A rows cols).m_rank) :
    luComputeKernel (st0.compute A rows cols)
        ((st0.compute A rows cols).m_q ((st0.compute A rows cols).m_rank + k)) k = 1 ∧
    (∀ j', j' < cols - (st0.compute A rows cols).m_rank → j' ≠ k →
      luComputeKernel (st0.compute A rows cols)
        ((st0.compute A rows cols).m_q ((st0.compute A rows cols).m_rank + j')) k = 0) ∧
    (∀ coeffs : ℕ → ℚ,
      (∀ a, a < cols →
        ∑ t ∈ Finset.range (cols - (st0.compute A rows cols).m_rank),
          coeffs t * luComputeKernel (st0.compute A rows cols) a t = 0) →
      coeffs k = 0) := by
  have hqinj := compute_q_injective st0 A rows cols
  have hfree := luComputeKernel_free_rows (st0.compute A rows cols) hqinj
  refine ⟨?_, ?_, ?_⟩
  · have := hfree k k hk hk
    rwa [if_pos rfl] at this
  · intro j' hj hne
    have := hfree j' k hj hk
    rwa [if_neg hne] at this
  · intro coeffs hcomb
    have ha : (st0.compute A rows cols).m_q ((st0.compute A rows cols).m_rank + k) < cols :=
      compute_q_lt st0 A rows cols _ (by omega)
    have hsum := hcomb _ ha
    have hterm : ∀ t ∈ Finset.range (cols - (st0.compute A rows cols).m_rank),
        coeffs t * luComputeKernel (st0.compute A rows cols)
            ((st0.compute A rows cols).m_q ((st0.compute A rows cols).m_rank + k)) t
          = if t = k then coeffs t else 0 := by
      intro t htm
      rw [hfree k t hk (Finset.mem_range.mp htm)]
      by_cases h : t = k
      · subst h
        rw [if_pos rfl, if_pos rfl, mul_one]
      · rw [if_neg (fun hh => h hh.symm), if_neg h, mul_zero]
    rw [Finset.sum_congr rfl hterm, Finset.sum_ite_eq' (Finset.range _) k] at hsum
    rwa [if_pos (Finset.mem_range.mpr hk)] at hsum

/-- C10 witness: the 1 × 3 zero matrix (rank 0, kernel dimension 3) at
column index 0. -/
theorem C10_kernel_identity_block_witness :
    (0:ℕ) < 3 - (LUState.fresh.compute (fun _ _ => 0) 1 3).m_rank ∧
    (luComputeKernel (LUState.fresh.compute (fun _ _ => 0) 1 3)
        ((LUState.fresh.compute (fun _ _ => 0) 1 3).m_q
          ((LUState.fresh.compute (fun _ _ => 0) 1 3).m_rank + 0)) 0 = 1 ∧
     (∀ j', j' < 3 - (LUState.fresh.compute (fun _ _ => 0) 1 3).m_rank → j' ≠ 0 →
       luComputeKernel (LUState.fresh.compute (fun _ _ => 0) 1 3)
         ((LUState.fresh.compute (fun _ _ => 0) 1 3).m_q
           ((LUState.fresh.compute (fun _ _ => 0) 1 3).m_rank + j')) 0 = 0) ∧
     (∀ coeffs : ℕ → ℚ,
       (∀ a, a < 3 →
         ∑ t ∈ Finset.range (3 - (LUState.fresh.compute (fun _ _ => 0) 1 3).m_rank),
           coeffs t * luComputeKernel (LUState.fresh.compute (fun _ _ => 0) 1 3) a t = 0) →
       coeffs 0 = 0)) :=
  ⟨by decide, C10_kernel_identity_block LUState.fresh (fun _ _ => 0) 1 3 0 (by decide)⟩

theorem forwardSubst_succ (L : Mat) (d : ℕ) (c : Mat) :
    forwardSubst L (d + 1) c = fsubStep L (forwardSubst L d c) d := by
  unfold forwardSubst
  rw [List.range_succ, List.foldl_append]
  rfl

/-- Correctness of the forward substitution: rows at or beyond `dim` are
untouched and each solved row satisfies its unit-lower-triangular equation. -/
theorem forwardSubst_spec (L : Mat) (dim : ℕ) (c : Mat) :
    (∀ a, dim ≤ a → ∀ l, forwardSubst L dim c a l = c a l) ∧
    (∀ i, i < dim → ∀ l,
      forwardSubst L dim c i l
          + ∑ t ∈ Finset.range i, L i t * forwardSubst L dim c t l
        = c i l) := by
  induction dim with
  | zero => exact ⟨fun a _ l => rfl, fun i hi => absurd hi (by omega)⟩
  | succ d ih =>
    rw [forwardSubst_succ]
    constructor
    · intro a ha l
      unfold fsubStep
      rw [if_neg (by omega : ¬ a = d)]
      exact ih.1 a (by omega) l
    · intro i hi l
      have hsum : ∀ m, m ≤ d → ∀ a,
          ∑ t ∈ Finset.range m, L a t * fsubStep L (forwardSubst L d c) d t l
            = ∑ t ∈ Finset.range m, L a t * forwardSubst L d c t l := by
        intro m hm a
        apply Finset.sum_congr rfl
        intro t htm
        rw [Finset.mem_range] at htm
        unfold fsubStep
        rw [if_neg (by omega : ¬ t = d)]
      by_cases hid : i = d
      · subst hid
        have hrow : fsubStep L (forwardSubst L i c) i i l
            = forwardSubst L i c i l
                - ∑ t ∈ Finset.range i, L i t * forwardSubst L i c t l := by
          simp [fsubStep]
        rw [hrow, hsum i le_rfl i]
        have hF := ih.1 i le_rfl l
        linarith
      · have hid' : i < d := by omega
        have hrow : fsubStep L (forwardSubst L d c) d i l = forwardSubst L d c i l := by
          unfold fsubStep
          rw [if_neg hid]
        rw [hrow, hsum i (by omega) i]
        exact ih.2 i hid' l

/-- Invariant of the backward-substitution fold, processed from row
`dim - 1` down to row `m`. -/
theorem bsubAux_spec (U : Mat) (dim : ℕ) (hdiag : ∀ i, i < dim → U i i ≠ 0) :
    ∀ (len m : ℕ), m + len = dim → ∀ c : Mat,
      (∀ a, a < m ∨ dim ≤ a → ∀ l,
        ((List.range' m len).reverse.foldl (bsubStep U dim) c) a l = c a l) ∧
      (∀ i, m ≤ i → i < dim → ∀ l,
        U i i * ((List.range' m len).reverse.foldl (bsubStep U dim) c) i l
            + ∑ t ∈ Finset.Ico (i + 1) dim,
                U i t * ((List.range' m len).reverse.foldl (bsubStep U dim) c) t l
          = c i l) := by
  intro len
  induction len with
  | zero =>
    intro m hm c
    exact ⟨fun a _ l => rfl, fun i h1 h2 => by omega⟩
  | succ d ih =>
    intro m hm c
    have hdecomp : (List.range' m (d + 1)).reverse
        = (List.range' (m + 1) d).reverse ++ [m] := by
      rw [List.range'_succ, List.reverse_cons]
    have hfold : ∀ x : Mat, ((List.range' m (d + 1)).reverse.foldl (bsubStep U dim) x)
        = bsubStep U dim ((List.range' (m + 1) d).reverse.foldl (bsubStep U dim) x) m := by
      intro x
      rw [hdecomp, List.foldl_append]
      rfl
    obtain ⟨ih1, ih2⟩ := ih (m + 1) (by omega) c
    constructor
    · intro a ha l
      rw [hfold]
      unfold bsubStep
      rw [if_neg (by omega : ¬ a = m)]
      exact ih1 a (by omega) l
    · intro i h1 h2 l
      rw [hfold]
      have hother : ∀ t, t ≠ m →
          bsubStep U dim ((List.range' (m + 1) d).reverse.foldl (bsubStep U dim) c) m t l
            = ((List.range' (m + 1) d).reverse.foldl (bsubStep U dim) c) t l := by
        intro t ht
        unfold bsubStep
        rw [if_neg ht]
      by_cases him : i = m
      · subst him
        have hrow : bsubStep U dim ((List.range' (i + 1) d).reverse.foldl (bsubStep U dim) c) i i l
            = (((List.range' (i + 1) d).reverse.foldl (bsubStep U dim) c) i l
                - ∑ t ∈ Finset.Ico (i + 1) dim,
                    U i t * ((List.range' (i + 1) d).reverse.foldl (bsubStep U dim) c) t l)
              / U i i := by
          simp [bsubStep]
        have hsum : ∑ t ∈ Finset.Ico (i + 1) dim,
            U i t * bsubStep U dim ((List.range' (i + 1) d).reverse.foldl (bsubStep U dim) c) i t l
              = ∑ t ∈ Finset.Ico (i + 1) dim,
                  U i t * ((List.range' (i + 1) d).reverse.foldl (bsubStep U dim) c) t l := by
          apply Finset.sum_congr rfl
          intro t htm
          rw [Finset.mem_Ico] at htm
          rw [hother t (by omega)]
        rw [hrow, hsum, mul_div_cancel₀ _ (hdiag i h2)]
        have hF := ih1 i (by omega) l
        linarith
      · have hrowi : bsubStep U dim ((List.range' (m + 1) d).reverse.foldl (bsubStep U dim) c) m i l
            = ((List.range' (m + 1) d).reverse.foldl (bsubStep U dim) c) i l :=
          hother i him
        have hsum : ∑ t ∈ Finset.Ico (i + 1) dim,
            U i t * bsubStep U dim ((List.range' (m + 1) d).reverse.foldl (bsubStep U dim) c) m t l
              = ∑ t ∈ Finset.Ico (i + 1) dim,
                  U i t * ((List.range' (m + 1) d).reverse.foldl (bsubStep U dim) c) t l := by
          apply Finset.sum_congr rfl
          intro t htm
          rw [Finset.mem_Ico] at htm
          rw [hother t (by omega)]
        rw [hrowi, hsum]
        exact ih2 i (by omega) h2 l

/-- Correctness of the backward substitution: rows at or beyond `dim` are
untouched and each solved row satisfies its upper-triangular equation. -/
theorem backSubst_spec (U : Mat) (dim : ℕ) (c : Mat) (hdiag : ∀ i, i < dim → U i i ≠ 0) :
    (∀ a, dim ≤ a → ∀ l, backSubst U dim c a l = c a l) ∧
    (∀ i, i < dim → ∀ l,
      U i i * backSubst U dim c i l
          + ∑ t ∈ Finset.Ico (i + 1) dim, U i t * backSubst U dim c t l
        = c i l) := by
  have h := bsubAux_spec U dim hdiag dim 0 (by omega) c
  unfold backSubst
  rw [List.range_eq_range']
  exact ⟨fun a ha l => h.1 a (Or.inr ha) l, fun i hi l => h.2 i (by omega) hi l⟩

/-- Multiplying the unit-lower factor by the forward-substituted matrix
recovers the right-hand side. -/
theorem matL_mul_forwardSubst (G : Mat) (n : ℕ) (c : Mat) (i : ℕ) (hi : i < n) (l : ℕ) :
    ∑ t ∈ Finset.range n, matL G i t * forwardSubst G n c t l = c i l := by
  have hi1 : i + 1 ≤ n := hi
  rw [Finset.range_eq_Ico,
    ← Finset.sum_Ico_consecutive (fun t => matL G i t * forwardSubst G n c t l)
      (Nat.zero_le (i + 1)) hi1,
    Finset.sum_Ico_succ_top (Nat.zero_le i)]
  have htail : ∑ t ∈ Finset.Ico (i + 1) n, matL G i t * forwardSubst G n c t l = 0 := by
    apply Finset.sum_eq_zero
    intro t htm
    rw [Finset.mem_Ico] at htm
    unfold matL
    rw [if_neg (by omega), if_neg (by omega), zero_mul]
  have hdiag : matL G i i = 1 := by
    unfold matL
    rw [if_pos rfl]
  have hlow : ∀ t ∈ Finset.Ico 0 i, matL G i t * forwardSubst G n c t l
      = G i t * forwardSubst G n c t l := by
    intro t htm
    rw [Finset.mem_Ico] at htm
    unfold matL
    rw [if_neg (by omega), if_pos htm.2]
  rw [htail, add_zero, hdiag, one_mul, Finset.sum_congr rfl hlow]
  have := (forwardSubst_spec G n c).2 i hi l
  rw [Finset.range_eq_Ico] at this
  linarith

/-- Multiplying the upper factor by the backward-substituted matrix recovers
the right-hand side. -/
theorem matU_mul_backSubst (G : Mat) (n : ℕ) (c : Mat)
    (hdiag : ∀ i, i < n → G i i ≠ 0) (i : ℕ) (hi : i < n) (l : ℕ) :
    ∑ t ∈ Finset.range n, matU G i t * backSubst G n c t l = c i l := by
  have hi0 : i ≤ n := le_of_lt hi
  rw [Finset.range_eq_Ico,
    ← Finset.sum_Ico_consecutive (fun t => matU G i t * backSubst G n c t l)
      (Nat.zero_le i) hi0]
  have hlow : ∑ t ∈ Finset.Ico 0 i, matU G i t * backSubst G n c t l = 0 := by
    apply Finset.sum_eq_zero
    intro t htm
    rw [Finset.mem_Ico] at htm
    unfold matU
    rw [if_neg (by omega), zero_mul]
  have hIco : ∑ t ∈ Finset.Ico i n, matU G i t * backSubst G n c t l
      = G i i * backSubst G n c i l
        + ∑ t ∈ Finset.Ico (i + 1) n, G i t * backSubst G n c t l := by
    rw [Finset.sum_eq_sum_Ico_succ_bot hi]
    have h1 : matU G i i = G i i := by
      unfold matU
      rw [if_pos le_rfl]
    have h2 : ∀ t ∈ Finset.Ico (i + 1) n, matU G i t * backSubst G n c t l
        = G i t * backSubst G n c t l := by
      intro t htm
      rw [Finset.mem_Ico] at htm
      unfold matU
      rw [if_pos (by omega)]
    rw [h1, Finset.sum_congr rfl h2]
  rw [hlow, zero_add, hIco]
  exact (backSubst_spec G n c hdiag).2 i hi l

/-- Reindex a sum over `range n` along a permutation of `[0, n)` given with
its inverse. -/
theorem sum_reindex_perm (q qi : ℕ → ℕ) (n : ℕ) (f : ℕ → ℚ)
    (hq : ∀ x, x < n → q x < n) (hqi : ∀ x, x < n → qi x < n)
    (h1 : ∀ x, q (qi x) = x) (h2 : ∀ x, qi (q x) = x) :
    ∑ j ∈ Finset.range n, f j = ∑ j' ∈ Finset.range n, f (q j') := by
  apply Finset.sum_bij' (fun j _ => qi j) (fun j' _ => q j')
  · intro a ha
    exact Finset.mem_range.mpr (hqi a (Finset.mem_range.mp ha))
  · intro a ha
    exact Finset.mem_range.mpr (hq a (Finset.mem_range.mp ha))
  · intro a _
    exact h1 a
  · intro a _
    exact h2 a
  · intro a _
    rw [h1 a]

/-- The solver output on a square full-rank factorization state, read at row
`m_q j'`: the back substitution of the forward substitution of the
`m_p`-scattered right-hand side. -/
theorem luSolveImpl_square_entry (st : LUState) (B : Mat) (n : ℕ)
    (hrows : st.rows = n) (hcols : st.cols = n) (hrank : st.m_rank = n) (hn : 0 < n)
    (hq_inj : Function.Injective st.m_q)
    (j' : ℕ) (hj' : j' < n) (l : ℕ) :
    luSolveImpl st B (st.m_q j') l
      = backSubst st.m_lu n (forwardSubst st.m_lu n
          ((List.range n).foldl (fun c i2 => updateRow c (st.m_p i2) (B i2))
            (fun _ _ => 0))) j' l := by
  unfold luSolveImpl
  simp only [hrows, hcols, hrank, Nat.min_self, Nat.sub_self, List.range_zero,
    List.foldl_nil]
  rw [if_neg (by omega : ¬ n = 0), if_neg (lt_irrefl n)]
  rw [foldl_updateRow_mem st.m_q _ (List.range n) _ j' (List.mem_range.mpr hj')
    (fun b _ hb => hq_inj hb)]

/-- C2: for a square matrix whose computed factorization has full rank `n`
and any right-hand side with matching row count, `solve` succeeds and the
returned `X` satisfies `A*X = B` exactly (elementwise on the `n × bcols`
shape). -/
theorem C2_solve_full_rank_square (st0 : LUState) (A B : Mat) (n bcols : ℕ)
    (hrank : (st0.compute A n n).m_rank = n)
    (i l : ℕ) (hi : i < n) (hl : l < bcols) :
    (st0.compute A n n).solve B n bcols
        = .ok (luSolveImpl (st0.compute A n n) B, n, bcols) ∧
      mulMat A (luSolveImpl (st0.compute A n n) B) n i l = B i l := by
  have hn : 0 < n := by omega
  obtain ⟨e1, e2, e3, e4, e5, e6⟩ := luElim_spec A n n
  have hrankE : (luElim A n n).2 = n := by
    rw [← compute_m_rank st0 A n n]
    exact hrank
  constructor
  · unfold LUState.solve
    rw [if_pos (show (st0.compute A n n).m_originalMatrix.isSome = true from rfl),
      if_pos (show n = (st0.compute A n n).rows from rfl)]
    rfl
  · have hdiagE : ∀ t, t < n → (st0.compute A n n).m_lu t t ≠ 0 := by
      intro t ht
      rw [compute_m_lu]
      exact e4 t (by omega)
    have hq_inj := compute_q_injective st0 A n n
    have hp_inj : Function.Injective (st0.compute A n n).m_p := by
      rw [compute_m_p]
      exact applySwaps_injective _ _
    have hq_lt := compute_q_lt st0 A n n
    have hp_lt := compute_p_lt st0 A n n
    have hpi : (st0.compute A n n).m_p i < n := hp_lt i hi
    set c1 : Mat := (List.range n).foldl
      (fun c i2 => updateRow c ((st0.compute A n n).m_p i2) (B i2)) (fun _ _ => 0) with hc1
    set c2 : Mat := forwardSubst (st0.compute A n n).m_lu n c1 with hc2
    set c3 : Mat := backSubst (st0.compute A n n).m_lu n c2 with hc3
    have hX : ∀ j', j' < n → ∀ l2,
        luSolveImpl (st0.compute A n n) B ((st0.compute A n n).m_q j') l2 = c3 j' l2 := by
      intro j' hj' l2
      rw [luSolveImpl_square_entry (st0.compute A n n) B n rfl rfl hrank hn hq_inj j' hj' l2]
    have hqinv : ∃ qi : ℕ → ℕ, (∀ x, (st0.compute A n n).m_q (qi x) = x) ∧
        (∀ x, qi ((st0.compute A n n).m_q x) = x) ∧ (∀ x, x < n → qi x < n) := by
      refine ⟨applySwaps (luElim A n n).1.colT (List.range (min n n)).reverse, ?_, ?_, ?_⟩
      · intro x
        rw [compute_m_q]
        exact applySwaps_reverse_cancel _ _ x
      · intro x
        rw [compute_m_q]
        exact applySwaps_cancel_reverse _ _ x
      · intro x hx
        apply applySwaps_lt _ x hx
        intro kk hkk
        exact colT_swaps_in_range A n n kk (List.mem_reverse.mp hkk)
    obtain ⟨qi, hq_qi, hqi_q, hqi_lt⟩ := hqinv
    have hrecon : ∀ a, a < n → ∀ j', j' < n →
        A a ((st0.compute A n n).m_q j')
          = ∑ t ∈ Finset.range n,
              matL (st0.compute A n n).m_lu ((st0.compute A n n).m_p a) t
                * matU (st0.compute A n n).m_lu t j' := by
      intro a ha j' hj'
      have h := compute_recon_pointwise st0 A n n a ha j' hj'
      rwa [Nat.min_self] at h
    unfold mulMat
    rw [sum_reindex_perm (st0.compute A n n).m_q qi n
      (fun j => A i j * luSolveImpl (st0.compute A n n) B j l) hq_lt hqi_lt hq_qi hqi_q]
    have hterm : ∀ j' ∈ Finset.range n,
        A i ((st0.compute A n n).m_q j')
            * luSolveImpl (st0.compute A n n) B ((st0.compute A n n).m_q j') l
          = ∑ t ∈ Finset.range n,
              matL (st0.compute A n n).m_lu ((st0.compute A n n).m_p i) t
                * (matU (st0.compute A n n).m_lu t j' * c3 j' l) := by
      intro j' hj'
      rw [Finset.mem_range] at hj'
      rw [hX j' hj' l, hrecon i hi j' hj', Finset.sum_mul]
      apply Finset.sum_congr rfl
      intro t _
      ring
    rw [Finset.sum_congr rfl hterm, Finset.sum_comm]
    have hinner : ∀ t ∈ Finset.range n,
        ∑ j' ∈ Finset.range n,
            matL (st0.compute A n n).m_lu ((st0.compute A n n).m_p i) t
              * (matU (st0.compute A n n).m_lu t j' * c3 j' l)
          = matL (st0.compute A n n).m_lu ((st0.compute A n n).m_p i) t * c2 t l := by
      intro t htm
      rw [Finset.mem_range] at htm
      rw [← Finset.mul_sum]
      rw [matU_mul_backSubst (st0.compute A n n).m_lu n c2 hdiagE t htm l]
    rw [Finset.sum_congr rfl hinner,
      matL_mul_forwardSubst (st0.compute A n n).m_lu n c1 _ hpi l, hc1]
    rw [foldl_updateRow_mem (st0.compute A n n).m_p B (List.range n) _ i
      (List.mem_range.mpr hi) (fun b _ hb => hp_inj hb)]

/-- C2 witness: the 1 × 1 system `[[2]] · X = [[3]]`. -/
theorem C2_solve_full_rank_square_witness :
    ((LUState.fresh.compute (fun _ _ => 2) 1 1).m_rank = 1 ∧ (0:ℕ) < 1 ∧ (0:ℕ) < 1) ∧
    ((LUState.fresh.compute (fun _ _ => 2) 1 1).solve (fun _ _ => 3) 1 1
        = .ok (luSolveImpl (LUState.fresh.compute (fun _ _ => 2) 1 1) (fun _ _ => 3), 1, 1) ∧
      mulMat (fun _ _ => 2)
          (luSolveImpl (LUState.fresh.compute (fun _ _ => 2) 1 1) (fun _ _ => 3)) 1 0 0
        = (fun (_ _ : ℕ) => (3:ℚ)) 0 0) :=
  ⟨⟨by decide, by decide, by decide⟩,
    C2_solve_full_rank_square LUState.fresh (fun _ _ => 2) (fun _ _ => 3) 1 1
      (by decide) 0 0 (by decide) (by decide)⟩

/-- The elimination of an all-zero matrix terminates with rank 0: the very
first corner maximum is 0, so the `k = 0` negligibility test fires (or the
loop is empty when a dimension is 0). -/
theorem zero_matrix_rank (m n : ℕ) : (luElim (fun _ _ => 0) m n).2 = 0 := by
  rcases Nat.eq_zero_or_pos (min m n) with h0 | hpos
  · simp only [luElim, h0, luLoop]
  · obtain ⟨n', hn'⟩ : ∃ n', min m n = n' + 1 := ⟨min m n - 1, by omega⟩
    have h1 : 0 < m := by omega
    have h2 : 0 < n := by omega
    have hbic : (cornerArgmax (fun _ _ => (0:ℚ)) m n 0).2.2 = 0 := by
      rw [(cornerArgmax_spec (fun _ _ => (0:ℚ)) m n 0 h1 h2).1, ei_abs_eq_abs, abs_zero]
    have htest : ei_isMuchSmallerThan (cornerArgmax (fun _ _ => (0:ℚ)) m n 0).2.2
        (cornerArgmax (fun _ _ => (0:ℚ)) m n 0).2.2 (epsilonQ * ((n' + 1 : ℕ) : ℚ)) := by
      unfold ei_isMuchSmallerThan
      rw [hbic]
      have ha : ei_abs 0 = 0 := by
        rw [ei_abs_eq_abs, abs_zero]
      rw [ha]
      simp [epsilonQ]
    simp only [luElim, hn', luLoop, eq_self_iff_true, if_true]
    rw [if_pos htest]

/-- C8: computing the factorization of the m × n all-zero matrix yields
`rank() = 0`, and a subsequent `solve(B)` with a matching right-hand-side
row count returns the all-zero solution of shape `cols × B.cols()` (the
`rank == 0` special case of the solver). -/
theorem C8_zero_matrix_rank_and_solve (st0 : LUState) (B : Mat)
    (m n brows bcols : ℕ) (hb : brows = m) :
    (st0.compute (fun _ _ => 0) m n).m_rank = 0 ∧
    (st0.compute (fun _ _ => 0) m n).solve B brows bcols =
      .ok ((fun _ _ => 0 : Mat), n, bcols) := by
  have hr : (st0.compute (fun _ _ => 0) m n).m_rank = 0 := by
    rw [compute_m_rank]; exact zero_matrix_rank m n
  refine ⟨hr, ?_⟩
  unfold LUState.solve
  have hsome : (st0.compute (fun _ _ => 0) m n).m_originalMatrix.isSome := rfl
  rw [if_pos hsome]
  rw [if_pos (show brows = (st0.compute (fun _ _ => 0) m n).rows from hb)]
  rw [show luSolveImpl (st0.compute (fun _ _ => 0) m n) B = (fun _ _ => 0 : Mat) from by
    unfold luSolveImpl; rw [if_pos hr]]
  rfl

/-- C8 witness: the 2 × 3 zero matrix with a 2 × 1 right-hand side. -/
theorem C8_zero_matrix_rank_and_solve_witness :
    (LUState.fresh.compute (fun _ _ => 0) 2 3).m_rank = 0 ∧
    (LUState.fresh.compute (fun _ _ => 0) 2 3).solve (fun _ _ => 5) 2 1 =
      .ok ((fun _ _ => 0 : Mat), 3, 1) :=
  C8_zero_matrix_rank_and_solve LUState.fresh (fun _ _ => 5) 2 3 2 1 rfl

/-- C3: the kernel is returned with exactly `cols - rank` columns for every
input (first conjunct), with no lower bound of one column; on the invertible
2 × 2 identity matrix the code's `kernel()` therefore returns a 0-column
result, whereas the claim demands `max(1, dimensionOfKernel()) = 1` columns
(remaining conjuncts). -/
theorem C3_kernel_missing_max_one (st0 : LUState) (A : Mat) (rows cols : ℕ) :
    ((st0.compute A rows cols).kernel =
      .ok (luComputeKernel (st0.compute A rows cols), cols,
        cols - (st0.compute A rows cols).m_rank)) ∧
    (LUState.fresh.compute (fun i j => if i = j then 1 else 0) 2 2).m_rank = 2 ∧
    ((LUState.fresh.compute (fun i j => if i = j then 1 else 0) 2 2).kernel =
      .ok (luComputeKernel
        (LUState.fresh.compute (fun i j => if i = j then 1 else 0) 2 2), 2, 0)) ∧
    (0 : ℕ) ≠ max 1 (2 -
      (LUState.fresh.compute (fun i j => if i = j then 1 else 0) 2 2).m_rank) := by
  have hrank2 : (LUState.fresh.compute (fun i j => if i = j then 1 else 0) 2 2).m_rank
      = 2 := by decide
  refine ⟨?_, hrank2, ?_, ?_⟩
  · unfold LUState.kernel
    rw [if_pos (show (st0.compute A rows cols).m_originalMatrix.isSome = true from rfl)]
    rfl
  · unfold LUState.kernel
    rw [if_pos (show (LUState.fresh.compute (fun i j => if i = j then 1 else 0)
      2 2).m_originalMatrix.isSome = true from rfl)]
    simp only [hrank2]
    rfl
  · rw [hrank2]
    decide

/-- C4: the pivot-negligibility threshold defaults to machine epsilon times
`min(rows, cols)` (first conjunct), but it cannot be overridden: `compute`
reads no prior member, so two instances with any two different pre-set
`m_precision` values — or any other difference — produce identical computed
states, and there is no `setThreshold` member at all (second conjunct). -/
theorem C4_threshold_not_overridable (st0 st1 : LUState) (A : Mat)
    (rows cols : ℕ) :
    (st0.compute A rows cols).m_precision = epsilonQ * ((min rows cols : ℕ) : ℚ) ∧
    st0.compute A rows cols = st1.compute A rows cols :=
  ⟨rfl, rfl⟩
